import Mathlib

/-!
Verification of the Swagger 2.0 → JSON Schema conversion engine
(`src/json-schema.js`).  The JavaScript code is shallowly embedded:
JSON-like values become the inductive type `J`, JavaScript property access,
truthiness, `_.omit`, `Object.keys` and friends become total Lean helpers,
and every recursive routine of the source is embedded as a fuel-indexed
function (fuel `sizeOf v` strictly bounds the recursion depth of the
original code, which descends structurally).  Exceptions thrown by the
source are modelled with `Except String`; the reserved message `"FUEL"`
is used only for fuel exhaustion, which is proved unreachable where a
theorem asserts success.  `_.cloneDeep` is the identity on pure values.
Property access on `null`/`undefined` (a JavaScript `TypeError`) is
modelled as `undefined` (`none`); the schemas appearing in the claims
never exercise that corner.
-/

/-- JSON-like values: the dynamic data the engine operates on.
Objects are ordered key/value lists, mirroring JavaScript insertion order. -/
inductive J where
  | null : J
  | bool : Bool → J
  | num : Int → J
  | str : String → J
  | arr : List J → J
  | obj : List (String × J) → J
mutual

/-- Structural equality test on `J` (JavaScript deep equality of JSON trees). -/
def J.beq : J → J → Bool
  | .null, .null => true
  | .bool a, .bool b => a == b
  | .num a, .num b => a == b
  | .str a, .str b => a == b
  | .arr as, .arr bs => J.beqList as bs
  | .obj as, .obj bs => J.beqFields as bs
  | _, _ => false

def J.beqList : List J → List J → Bool
  | [], [] => true
  | a :: as, b :: bs => J.beq a b && J.beqList as bs
  | _, _ => false

def J.beqFields : List (String × J) → List (String × J) → Bool
  | [], [] => true
  | (k, a) :: as, (l, b) :: bs => k == l && J.beq a b && J.beqFields as bs
  | _, _ => false

end

theorem beqList_iff (as bs : List J) (h : ∀ a ∈ as, ∀ b : J, J.beq a b = true ↔ a = b) :
    J.beqList as bs = true ↔ as = bs := by
  induction as generalizing bs with
  | nil => cases bs <;> simp [J.beqList]
  | cons a as ih =>
    cases bs with
    | nil => simp [J.beqList]
    | cons b bs =>
      simp only [J.beqList, Bool.and_eq_true, List.cons.injEq]
      constructor
      · rintro ⟨h1, h2⟩
        exact ⟨(h a (List.mem_cons_self _ _) b).mp h1,
          (ih bs (fun x hx => h x (List.mem_cons_of_mem _ hx))).mp h2⟩
      · rintro ⟨h1, h2⟩
        exact ⟨(h a (List.mem_cons_self _ _) b).mpr h1,
          (ih bs (fun x hx => h x (List.mem_cons_of_mem _ hx))).mpr h2⟩

theorem beqFields_iff (as bs : List (String × J))
    (h : ∀ kv ∈ as, ∀ b : J, J.beq kv.2 b = true ↔ kv.2 = b) :
    J.beqFields as bs = true ↔ as = bs := by
  induction as generalizing bs with
  | nil => cases bs <;> simp [J.beqFields]
  | cons a as ih =>
    cases bs with
    | nil => cases a; simp [J.beqFields]
    | cons b bs =>
      cases a with
      | mk k v =>
        cases b with
        | mk l w =>
          simp only [J.beqFields, Bool.and_eq_true, List.cons.injEq, Prod.mk.injEq, beq_iff_eq]
          constructor
          · rintro ⟨⟨h0, h1⟩, h2⟩
            exact ⟨⟨h0, (h (k, v) (List.mem_cons_self _ _) w).mp h1⟩,
              (ih bs (fun x hx => h x (List.mem_cons_of_mem _ hx))).mp h2⟩
          · rintro ⟨⟨h0, h1⟩, h2⟩
            exact ⟨⟨h0, (h (k, v) (List.mem_cons_self _ _) w).mpr h1⟩,
              (ih bs (fun x hx => h x (List.mem_cons_of_mem _ hx))).mpr h2⟩

theorem beq_iff_aux : ∀ n : Nat, ∀ a b : J, sizeOf a ≤ n → (J.beq a b = true ↔ a = b) := by
  intro n
  induction n with
  | zero =>
    intro a b h
    exfalso
    cases a <;> simp_all
  | succ n ih =>
    intro a b h
    cases a <;> cases b <;> simp_all [J.beq]
    case arr as bs =>
      apply beqList_iff
      intro x hx b
      apply ih
      have h1 := List.sizeOf_lt_of_mem hx
      omega
    case obj as bs =>
      apply beqFields_iff
      intro kv hkv b
      apply ih
      have h1 := List.sizeOf_lt_of_mem hkv
      cases kv with
      | mk k v => simp at h1 ⊢; omega

theorem beq_iff (a b : J) : J.beq a b = true ↔ a = b :=
  beq_iff_aux (sizeOf a) a b (Nat.le_refl _)

instance : DecidableEq J := fun a b =>
  if h : J.beq a b = true then .isTrue ((beq_iff a b).mp h)
  else .isFalse (fun he => h ((beq_iff a b).mpr he))

/-- First-match association-list lookup (JavaScript objects have unique keys). -/
def lookupField : List (String × J) → String → Option J
  | [], _ => none
  | (k, v) :: fs, key => if k = key then some v else lookupField fs key

/-- Digit value of a character, if it is `0`..`9`. -/
def charDigit? (c : Char) : Option Nat :=
  if c.toNat ≥ 48 ∧ c.toNat ≤ 57 then some (c.toNat - 48) else none

def digitsValAux : List Char → Nat → Option Nat
  | [], acc => some acc
  | c :: cs, acc =>
    match charDigit? c with
    | some d => digitsValAux cs (acc * 10 + d)
    | none => none

/-- All-digit string to a number (a kernel-reducible `String.toNat?`). -/
def strToNat? (s : String) : Option Nat :=
  match s.data with
  | [] => none
  | l => digitsValAux l 0

/-- JavaScript property read `v[key]`: objects by key, arrays by numeric
index, everything else `undefined`. -/
def J.get : J → String → Option J
  | .obj fs, key => lookupField fs key
  | .arr es, key =>
    match strToNat? key with
    | some i => es.get? i
    | none => none
  | _, _ => none

/-- JavaScript truthiness of a value. -/
def truthyJ : J → Bool
  | .null => false
  | .bool b => b
  | .num n => n != 0
  | .str s => s != ""
  | .arr _ => true
  | .obj _ => true

/-- Truthiness of a possibly-`undefined` property read. -/
def truthy : Option J → Bool
  | none => false
  | some v => truthyJ v

/-- Assignment into an association list: replace in place, else append
(JavaScript key-order semantics). -/
def setField : List (String × J) → String → J → List (String × J)
  | [], key, v => [(key, v)]
  | (k, w) :: fs, key, v =>
    if k = key then (k, v) :: fs else (k, w) :: setField fs key v

/-- JavaScript property write `v[key] = x` (used only on objects here). -/
def J.set : J → String → J → J
  | .obj fs, key, v => .obj (setField fs key v)
  | other, _, _ => other

def digitChar : Nat → Char
  | 0 => '0'
  | 1 => '1'
  | 2 => '2'
  | 3 => '3'
  | 4 => '4'
  | 5 => '5'
  | 6 => '6'
  | 7 => '7'
  | 8 => '8'
  | _ => '9'

def natKeyAux : Nat → Nat → List Char
  | 0, _ => []
  | fuel + 1, n => if n < 10 then [digitChar n] else natKeyAux fuel (n / 10) ++ [digitChar (n % 10)]

/-- Decimal rendering of an array index (JavaScript `Object.keys` key). -/
def natKey (n : Nat) : String := String.mk (natKeyAux (n + 1) n)

/-- `Object`-style key/value view used by lodash `omit`/`omitBy`: objects
give their entries, arrays their elements under stringified indices,
primitives nothing. -/
def J.toPairs : J → List (String × J)
  | .obj fs => fs
  | .arr es => (es.enum).map (fun p => (natKey p.1, p.2))
  | _ => []

/-- Character-level prefix test (JavaScript `String.prototype.startsWith`). -/
def listIsPre : List Char → List Char → Bool
  | [], _ => true
  | _ :: _, [] => false
  | a :: as, b :: bs => a == b && listIsPre as bs

/-- `s.startsWith pre` in JavaScript. -/
def strStartsWith (s pre : String) : Bool := listIsPre pre.data s.data

/-- `l.split('/')` at the character level. -/
def splitSlash : List Char → List (List Char)
  | [] => [[]]
  | c :: cs =>
    if c = '/' then [] :: splitSlash cs
    else
      match splitSlash cs with
      | [] => [[c]]
      | g :: gs => (c :: g) :: gs

/-- JavaScript `s.split('/')`. -/
def refSplit (s : String) : List String := (splitSlash s.data).map (fun l => String.mk l)

/-- JavaScript `parts.join('/')`. -/
def joinSlash : List String → String
  | [] => ""
  | [a] => a
  | a :: rest => a ++ "/" ++ joinSlash rest

/-- Explicit bind on `Except String`, kept as a plain match so proofs can
unfold it. -/
def exBind {α β : Type} (x : Except String α) (f : α → Except String β) : Except String β :=
  match x with
  | .error e => .error e
  | .ok a => f a

theorem exBind_ok {α β : Type} (a : α) (f : α → Except String β) :
    exBind (.ok a) f = f a := rfl

theorem exBind_error {α β : Type} (e : String) (f : α → Except String β) :
    exBind (.error e) f = .error e := rfl

mutual

/-- Node count of a `J` tree; used as a recursion-depth fuel bound. -/
def J.size : J → Nat
  | .null => 1
  | .bool _ => 1
  | .num _ => 1
  | .str _ => 1
  | .arr es => 1 + J.sizeList es
  | .obj fs => 1 + J.sizeFields fs

def J.sizeList : List J → Nat
  | [] => 0
  | v :: vs => J.size v + J.sizeList vs

def J.sizeFields : List (String × J) → Nat
  | [] => 0
  | (_, v) :: fs => J.size v + J.sizeFields fs

end

/-- Result of `lookupReference`: the bare definition id (`parts[2]`, absent
for a two-segment reference) together with the resolved value. -/
structure LookupResult where
  id : Option String
  referenced : J
deriving DecidableEq

/-- `depth && depth === currentDepth` — `depth` 0 is falsy in JavaScript. -/
def depthHit : Option Nat → Nat → Bool
  | some k, d => k != 0 && k == d
  | none, _ => false

/-- The resolution loop of `lookupReference`: follow each remaining
reference segment as a key, counting depth from 2, optionally breaking
early when the depth limit is hit. -/
def walkDefs : Option J → List String → Nat → Option Nat → Option J
  | value, [], _, _ => value
  | none, _ :: _, _, _ => none
  | some v, key :: rest, currentDepth, depth =>
    let value2 := v.get key
    if depthHit depth (currentDepth + 1) then value2
    else walkDefs value2 rest (currentDepth + 1) depth

/-- `lookupReference(reference, root, depth)` from the source: validates the
`#` / `definitions` prefix, walks `root.definitions`, and returns the
top-level definition id together with the resolved value.  A non-string
reference would throw `TypeError` on `.split` in JavaScript. -/
def lookupReference (reference : J) (root : J) (depth : Option Nat) : Except String LookupResult :=
  match reference with
  | .str s =>
    match refSplit s with
    | [] => .error "Schema reference must start with document root (#)"
    | p0 :: rest =>
      if p0 ≠ "#" then .error "Schema reference must start with document root (#)"
      else
        match rest with
        | [] => .error "Schema reference must be reference to #/definitions"
        | p1 :: rest2 =>
          if p1 ≠ "definitions" then .error "Schema reference must be reference to #/definitions"
          else
            match walkDefs (root.get "definitions") rest2 2 depth with
            | none => .error ("Reference to " ++ s ++ " does not exist")
            | some v => .ok { id := rest2.head?, referenced := v }
  | _ => .error "TypeError: reference is not a string"

/-- `pathHasCircularReference(paths, path, reference)`: the current joined
path, or any recorded path, string-prefix-matches the reference. -/
def pathHasCircularReference (paths : Option (List String)) (path : List String)
    (reference : String) : Bool :=
  strStartsWith (joinSlash path) reference ||
    (paths.getD []).any (fun p => strStartsWith p reference)

/-- Element-wise dereference (`example.map(value => dereference(...))`). -/
def derefList (rec : J → Option (List String) → Option (List String) → Except String J) :
    List J → Option (List String) → Option (List String) → Except String (List J)
  | [], _, _ => .ok []
  | e :: es, paths, path =>
    exBind (rec e paths path) fun v =>
    exBind (derefList rec es paths path) fun vs => .ok (v :: vs)

/-- Key-wise dereference (`_.forEach`), extending the path by each key. -/
def derefFields (rec : J → Option (List String) → Option (List String) → Except String J) :
    List (String × J) → Option (List String) → Option (List String) →
    Except String (List (String × J))
  | [], _, _ => .ok []
  | (k, v) :: fs, paths, path =>
    exBind (rec v paths (some ((path.getD []) ++ [k]))) fun w =>
    exBind (derefFields rec fs paths path) fun ws => .ok ((k, w) :: ws)

/-- The array/object/scalar fallthrough of `dereference`. -/
def derefStructural (rec : J → Option (List String) → Option (List String) → Except String J)
    (exm : J) (paths path : Option (List String)) : Except String J :=
  match exm with
  | .arr es => exBind (derefList rec es paths path) fun vs => .ok (.arr vs)
  | .obj fs => exBind (derefFields rec fs paths path) fun ws => .ok (.obj ws)
  | other => .ok other

/-- Fuel-indexed embedding of `dereference(example, root, paths, path)`.
The fuel only bounds recursion depth; `derefBound` below is proved
sufficient, so the `"FUEL"` outcome is unreachable from the wrapper. -/
def dereferenceF : Nat → J → J → Option (List String) → Option (List String) → Except String J
  | 0, _, _, _, _ => .error "FUEL"
  | fuel + 1, exm, root, paths, path =>
    if exm = .null then .ok .null
    else
      match exm.get "$ref" with
      | some (.str r) =>
        if r = "" then
          -- `example.$ref` is falsy: fall through to the structural cases
          derefStructural (fun e ps p => dereferenceF fuel e root ps p) exm paths path
        else
          if path.isSome && pathHasCircularReference paths (path.getD []) r then .ok .null
          else
            exBind (lookupReference (.str r) root none) fun ref =>
              dereferenceF fuel ref.referenced root
                (some ((paths.getD []) ++ [joinSlash (path.getD [])]))
                (some (refSplit r))
      | some _ =>
        -- `example.$ref && _.isString(example.$ref)` fails for non-strings
        derefStructural (fun e ps p => dereferenceF fuel e root ps p) exm paths path
      | none => derefStructural (fun e ps p => dereferenceF fuel e root ps p) exm paths path

/-- Fuel sufficient for any `dereference` run (proved below). -/
def derefBound (exm root : J) : Nat :=
  (J.size exm + J.size root + 1) * (J.size root + 1) + J.size exm + 1

/-- `dereference(example, root, paths, path)`. -/
def dereference (exm root : J) (paths path : Option (List String)) : Except String J :=
  dereferenceF (derefBound exm root) exm root paths path

/-- The keys `_.omit` removes in `convertSubSchema`. -/
def swaggerOnlyKeys : List String := ["discriminator", "readOnly", "xml", "externalDocs", "example"]

/-- `_.omit(schema, swaggerOnlyKeys)` (lodash turns non-objects into `{}`,
arrays into index-keyed objects). -/
def omitSwaggerKeys (v : J) : J :=
  .obj ((J.toPairs v).filter (fun kv => !(swaggerOnlyKeys.contains kv.1)))

/-- `_.omitBy(schema, isExtension)`: drop keys starting with `x-`. -/
def omitExtensions (v : J) : J :=
  .obj ((J.toPairs v).filter (fun kv => !(strStartsWith kv.1 "x-")))

/-- `if (schema.type === 'file') actualSchema.type = 'string'`. -/
def fileStep (schema a : J) : J :=
  if schema.get "type" = some (.str "file") then a.set "type" (.str "string") else a

/-- `if (schema.example) actualSchema.examples = [dereference(schema.example, swagger)]`. -/
def exampleStep (schema a swagger : J) : Except String J :=
  match schema.get "example" with
  | some ex =>
    if truthyJ ex then
      exBind (dereference ex swagger none none) fun d => .ok (a.set "examples" (.arr [d]))
    else .ok a
  | none => .ok a

/-- The `x-nullable` block: widen a truthy `type`, else set `type` to
`"null"` when `enum` is absent; independently append `null` to a truthy
array `enum` that does not contain it yet.  (A truthy non-array `enum`
would throw on `.includes` in JavaScript; modelled as a no-op.) -/
def nullableType (a : J) : J :=
  if truthy (a.get "type") then a.set "type" (.arr [(a.get "type").getD .null, .str "null"])
  else if a.get "enum" = none then a.set "type" (.str "null")
  else a

/-- `if (actualSchema.enum && !actualSchema.enum.includes(null)) push null`. -/
def nullableEnum (a1 : J) : J :=
  match a1.get "enum" with
  | some (.arr es) =>
    if !es.contains J.null then a1.set "enum" (.arr (es ++ [J.null])) else a1
  | _ => a1

def nullableStep (schema a : J) : J :=
  if truthy (schema.get "x-nullable") then nullableEnum (nullableType a) else a

/-- Convert a list of sub-schemas left to right, threading the shared
reference accumulator (`schema.X.map(recurseConvertSubSchema)`). -/
def convertList (conv : J → List J → Except String (J × List J)) :
    List J → List J → Except String (List J × List J)
  | [], refs => .ok ([], refs)
  | e :: es, refs =>
    exBind (conv e refs) fun p =>
    exBind (convertList conv es p.2) fun q => .ok (p.1 :: q.1, q.2)

/-- Convert every value of a field list (`properties` / `patternProperties`). -/
def convertFields (conv : J → List J → Except String (J × List J)) :
    List (String × J) → List J → Except String (List (String × J) × List J)
  | [], refs => .ok ([], refs)
  | (k, v) :: fs, refs =>
    exBind (conv v refs) fun p =>
    exBind (convertFields conv fs p.2) fun q => .ok ((k, p.1) :: q.1, q.2)

/-- `if (schema.X) actualSchema.X = schema.X.map(recurse)` for a combinator
key X (`allOf`/`anyOf`/`oneOf`); a truthy non-array would throw on `.map`
in JavaScript and is modelled as a no-op. -/
def stepCombinator (key : String) (conv : J → List J → Except String (J × List J))
    (schema : J) (st : J × List J) : Except String (J × List J) :=
  match schema.get key with
  | some (.arr es) =>
    exBind (convertList conv es st.2) fun q => .ok ((st.1).set key (.arr q.1), q.2)
  | _ => .ok st

/-- `if (schema.not) actualSchema.not = recurse(schema.not)`. -/
def stepNot (conv : J → List J → Except String (J × List J))
    (schema : J) (st : J × List J) : Except String (J × List J) :=
  match schema.get "not" with
  | some n =>
    if truthyJ n then
      exBind (conv n st.2) fun p => .ok ((st.1).set "not" p.1, p.2)
    else .ok st
  | none => .ok st

/-- `items`: element-wise when an array, once when a single truthy schema. -/
def stepItems (conv : J → List J → Except String (J × List J))
    (schema : J) (st : J × List J) : Except String (J × List J) :=
  match schema.get "items" with
  | some (.arr es) =>
    exBind (convertList conv es st.2) fun q => .ok ((st.1).set "items" (.arr q.1), q.2)
  | some it =>
    if truthyJ it then
      exBind (conv it st.2) fun p => .ok ((st.1).set "items" p.1, p.2)
    else .ok st
  | none => .ok st

/-- `typeof v === 'object'` and truthy (arrays qualify; `null` is falsy). -/
def isObjOrArr : J → Bool
  | .obj _ => true
  | .arr _ => true
  | _ => false

/-- `additionalItems` / `additionalProperties`: recurse only when the value
is truthy and of object type; booleans and other primitives pass through. -/
def stepObjectValued (key : String) (conv : J → List J → Except String (J × List J))
    (schema : J) (st : J × List J) : Except String (J × List J) :=
  match schema.get key with
  | some v =>
    if truthyJ v && isObjOrArr v then
      exBind (conv v st.2) fun p => .ok ((st.1).set key p.1, p.2)
    else .ok st
  | none => .ok st

/-- `properties` / `patternProperties`: convert each value under
`Object.keys`; for an array value the numeric keys address its elements.
(A truthy primitive has no own keys, so nothing happens.) -/
def stepProps (key : String) (conv : J → List J → Except String (J × List J))
    (schema : J) (st : J × List J) : Except String (J × List J) :=
  match schema.get key with
  | some (.obj fs) =>
    exBind (convertFields conv fs st.2) fun q => .ok ((st.1).set key (.obj q.1), q.2)
  | some (.arr es) =>
    exBind (convertList conv es st.2) fun q => .ok ((st.1).set key (.arr q.1), q.2)
  | _ => .ok st

/-- The combinator/structural recursion of `convertSubSchema`, in source
order. -/
def convertChildren (conv : J → List J → Except String (J × List J))
    (schema : J) (st : J × List J) : Except String (J × List J) :=
  exBind (stepCombinator "allOf" conv schema st) fun st =>
  exBind (stepCombinator "anyOf" conv schema st) fun st =>
  exBind (stepCombinator "oneOf" conv schema st) fun st =>
  exBind (stepNot conv schema st) fun st =>
  exBind (stepItems conv schema st) fun st =>
  exBind (stepObjectValued "additionalItems" conv schema st) fun st =>
  exBind (stepProps "properties" conv schema st) fun st =>
  exBind (stepProps "patternProperties" conv schema st) fun st =>
  stepObjectValued "additionalProperties" conv schema st

/-- Fuel-indexed embedding of `convertSubSchema(schema, references, swagger)`:
record a truthy `$ref` and return a bare reference node, otherwise strip the
Swagger-only and extension keys, apply the `type:'file'`, `example` and
`x-nullable` fixups, then recurse into the combinator and structural children
in source order. -/
def convertSubSchemaF : Nat → J → List J → J → Except String (J × List J)
  | 0, _, _, _ => .error "FUEL"
  | fuel + 1, schema, references, swagger =>
    if truthy (schema.get "$ref") then
      .ok (.obj [("$ref", (schema.get "$ref").getD .null)],
        references ++ [(schema.get "$ref").getD .null])
    else
      let a := omitExtensions (omitSwaggerKeys schema)
      let a := fileStep schema a
      exBind (exampleStep schema a swagger) fun a =>
      convertChildren (fun (s : J) (r : List J) => convertSubSchemaF fuel s r swagger)
        schema (nullableStep schema a, references)

/-- `convertSubSchema` with fuel `J.size schema`, which strictly bounds the
structural recursion depth of the source. -/
def convertSubSchema (schema : J) (references : List J) (swagger : J) :
    Except String (J × List J) :=
  convertSubSchemaF (J.size schema) schema references swagger

/-- `Object.values(v)`. -/
def J.values : J → List J
  | .obj fs => fs.map (fun kv => kv.2)
  | .arr es => es
  | _ => []

/-- Fuel-indexed `checkSchemaHasReferences`: true as soon as a truthy `$ref`
is found, walking every object value and array element. -/
def checkSchemaHasReferencesF : Nat → J → Bool
  | 0, _ => false
  | fuel + 1, schema =>
    truthy (schema.get "$ref") ||
    (J.values schema).any (fun v =>
      match v with
      | .arr es => es.any (fun e => checkSchemaHasReferencesF fuel e)
      | .obj _ => checkSchemaHasReferencesF fuel v
      | _ => false)

/-- `checkSchemaHasReferences(schema)`. -/
def checkSchemaHasReferences (schema : J) : Bool :=
  checkSchemaHasReferencesF (J.size schema) schema

/-- Concatenated recursion over a list of values. -/
def concatMapJ (f : J → List J) : List J → List J
  | [] => []
  | v :: vs => f v ++ concatMapJ f vs

/-- Concatenated recursion over field values. -/
def concatMapFields (f : J → List J) : List (String × J) → List J
  | [] => []
  | (_, v) :: fs => f v ++ concatMapFields f fs

/-- One guard of `findReferences` for a combinator key (truthy array maps
element-wise; a truthy non-array would throw in JavaScript, modelled []). -/
def findCombinator (fr : J → List J) : Option J → List J
  | some (.arr es) => concatMapJ fr es
  | _ => []

/-- The `items` guard of `findReferences`. -/
def findItems (fr : J → List J) : Option J → List J
  | some (.arr es) => concatMapJ fr es
  | some it => if truthyJ it then fr it else []
  | none => []

/-- The `not` guard of `findReferences`. -/
def findNot (fr : J → List J) : Option J → List J
  | some n => if truthyJ n then fr n else []
  | none => []

/-- The `additionalItems` / `additionalProperties` guard of `findReferences`. -/
def findObjectValued (fr : J → List J) : Option J → List J
  | some v => if truthyJ v && isObjOrArr v then fr v else []
  | none => []

/-- The `properties` / `patternProperties` guard of `findReferences`. -/
def findProps (fr : J → List J) : Option J → List J
  | some (.obj fs) => concatMapFields fr fs
  | some (.arr es) => concatMapJ fr es
  | _ => []

/-- Fuel-indexed `findReferences(schema)`: every `$ref` in the schema-shaped
positions, in traversal order. -/
def findReferencesF : Nat → J → List J
  | 0, _ => []
  | fuel + 1, schema =>
    if truthy (schema.get "$ref") then [(schema.get "$ref").getD .null]
    else
      let fr := fun (s : J) => findReferencesF fuel s
      findCombinator fr (schema.get "allOf") ++
      findCombinator fr (schema.get "anyOf") ++
      findCombinator fr (schema.get "oneOf") ++
      findNot fr (schema.get "not") ++
      findItems fr (schema.get "items") ++
      findObjectValued fr (schema.get "additionalItems") ++
      findProps fr (schema.get "properties") ++
      findProps fr (schema.get "patternProperties") ++
      findObjectValued fr (schema.get "additionalProperties")

/-- `findReferences(schema)`. -/
def findReferences (schema : J) : List J :=
  findReferencesF (J.size schema) schema

/-- `references.pop()`: split off the last element. -/
def popLast : List J → Option (List J × J)
  | [] => none
  | [x] => some ([], x)
  | x :: y :: xs =>
    match popLast (y :: xs) with
    | some (rest, last) => some (x :: rest, last)
    | none => none

/-- JavaScript `obj[id]` where `id` may be `undefined` (string-coerced). -/
def keyOfId : Option String → String
  | some s => s
  | none => "undefined"

/-- The worklist loop of `convertSchema`: pop a reference, resolve it to
depth 3, copy a newly discovered definition verbatim and enqueue the
references it contains, until the worklist is empty. -/
def resolveRefsF : Nat → List J → List (String × J) → J → Except String (List (String × J))
  | 0, _, _, _ => .error "FUEL"
  | fuel + 1, references, defs, root =>
    match popLast references with
    | none => .ok defs
    | some (rest, r) =>
      exBind (lookupReference r root (some 3)) fun lk =>
        let key := keyOfId lk.id
        if lookupField defs key = none then
          resolveRefsF fuel (rest ++ findReferences lk.referenced)
            (defs ++ [(key, lk.referenced)]) root
        else
          resolveRefsF fuel rest defs root

/-- Fuel for the worklist loop: the popped references either shrink the list
or insert a fresh definition id of `root`, so this bound dominates the
iteration count. -/
def resolveBound (references : List J) (root : J) : Nat :=
  references.length + (J.size root + 2) * (J.size root + 2)

/-- `convertSchema(schema, root, swagger, copyDefinitions)`. -/
def convertSchema (schema root swagger : J) (copyDefinitions : Bool := true) : Except String J :=
  exBind (convertSubSchema schema [] swagger) fun p =>
  exBind
    (if copyDefinitions && p.2.length != 0 then
      exBind (resolveRefsF (resolveBound p.2 root) p.2 [] root) fun defs =>
        .ok ((p.1).set "definitions" (.obj defs))
    else .ok p.1) fun result =>
    if truthy (result.get "$ref") && copyDefinitions then
      exBind (lookupReference ((result.get "$ref").getD .null) root none) fun reference =>
        match result.get "definitions" with
        | some defsv =>
          match defsv.get (keyOfId reference.id) with
          | some d =>
            if checkSchemaHasReferences d then
              -- wrap a root reference in allOf to avoid downstream loops
              .ok (.obj [("allOf", .arr [.obj [("$ref", (result.get "$ref").getD .null)]]),
                ("definitions", defsv)])
            else
              -- dereference the root reference when the definition is closed
              .ok d
          | none => .error "TypeError: cannot read properties of undefined"
        | none => .error "TypeError: cannot read properties of undefined"
    else .ok result

/-- Per-entry conversion used by `convertSchemaDefinitions`. -/
def convertDefsList : List (String × J) → J → Except String (List (String × J))
  | [], _ => .ok []
  | (k, v) :: fs, root =>
    exBind (convertSchema v root root false) fun c =>
    exBind (convertDefsList fs root) fun cs => .ok ((k, c) :: cs)

/-- `convertSchemaDefinitions(definitions)`: convert every definition
standalone with `copyDefinitions = false`. -/
def convertSchemaDefinitions (definitions : Option J) : Except String J :=
  match definitions with
  | some defs =>
    if truthyJ defs then
      match defs with
      | .obj fs =>
        exBind (convertDefsList fs (.obj [("definitions", defs)])) fun cs => .ok (.obj cs)
      | _ => .ok (.obj [])
    else .ok (.obj [])
  | none => .ok (.obj [])

/-- The definition id a reference string addresses: segment 2 of the split,
string-coerced exactly like the JavaScript `definitions[lookup.id]` access. -/
def refKey (r : J) : String :=
  match r with
  | .str s =>
    match refSplit s with
    | _ :: _ :: rest2 => keyOfId rest2.head?
    | _ => "undefined"
  | _ => "undefined"

/-- `typeof v` is exactly `'object'` and the value is an object literal. -/
def isObjB : J → Bool
  | .obj _ => true
  | _ => false

def concatMapS (f : J → List String) : List J → List String
  | [] => []
  | v :: vs => f v ++ concatMapS f vs

def concatMapFieldsS (f : J → List String) : List (String × J) → List String
  | [] => []
  | kv :: fs => f kv.2 ++ concatMapFieldsS f fs

/-- The reference a `dereference` call would follow at this node: a truthy
string `$ref`. -/
def ownRef : J → List String
  | .obj fs =>
    match lookupField fs "$ref" with
    | some (.str r) => if r = "" then [] else [r]
    | _ => []
  | _ => []

/-- All references `dereference` could ever follow inside a value. -/
def refsInF : Nat → J → List String
  | 0, _ => []
  | fuel + 1, v =>
    match v with
    | .obj fs => ownRef (.obj fs) ++ concatMapFieldsS (fun w => refsInF fuel w) fs
    | .arr es => concatMapS (fun w => refsInF fuel w) es
    | _ => []

def refsIn (v : J) : List String := refsInF (J.size v) v

/-- Negation of the guarded cycle check of `dereference`: with an undefined
path the check is skipped entirely. -/
def refAllowed (paths path : Option (List String)) (r : String) : Bool :=
  match path with
  | none => true
  | some p => !(pathHasCircularReference paths p r)

/-- Termination measure for `dereference`: the count of still-followable
references, lexicographically refined by the size of the current value. -/
def derefMeasure (exm root : J) (paths path : Option (List String)) : Nat :=
  (((refsIn exm ++ refsIn root).toFinset.filter
      (fun r => refAllowed paths path r = true)).card) * (J.size root + 1) + J.size exm

/-! ### Well-shaped reference-free schemas and the pure key-stripping
transform they convert to -/

def goodElems (g : J → Bool) (es : List J) : Bool := es.all (fun e => isObjB e && g e)

def goodCombinator (g : J → Bool) : Option J → Bool
  | some (.arr es) => goodElems g es
  | some v => !truthyJ v
  | none => true

def goodSingle (g : J → Bool) : Option J → Bool
  | some v => if truthyJ v then isObjB v && g v else true
  | none => true

def goodItems (g : J → Bool) : Option J → Bool
  | some (.arr es) => goodElems g es
  | some v => if truthyJ v then isObjB v && g v else true
  | none => true

def goodObjectValued (g : J → Bool) : Option J → Bool
  | some (.obj fs) => g (.obj fs)
  | some (.arr _) => false
  | some _ => true
  | none => true

def goodProps (g : J → Bool) : Option J → Bool
  | some (.obj fs) => fs.all (fun kv => isObjB kv.2 && g kv.2)
  | some (.arr _) => false
  | some v => !truthyJ v
  | none => true

/-- A well-shaped object schema with no truthy `$ref`, `x-nullable` or
`example` and no `type:'file'`, recursively at every converter-traversed
position. -/
def goodF : Nat → J → Bool
  | 0, _ => false
  | fuel + 1, v =>
    match v with
    | .obj fs =>
      let g := fun (s : J) => goodF fuel s
      !truthy (lookupField fs "$ref") &&
      !truthy (lookupField fs "x-nullable") &&
      !(lookupField fs "type" == some (.str "file")) &&
      !truthy (lookupField fs "example") &&
      goodCombinator g (lookupField fs "allOf") &&
      goodCombinator g (lookupField fs "anyOf") &&
      goodCombinator g (lookupField fs "oneOf") &&
      goodSingle g (lookupField fs "not") &&
      goodItems g (lookupField fs "items") &&
      goodObjectValued g (lookupField fs "additionalItems") &&
      goodProps g (lookupField fs "properties") &&
      goodProps g (lookupField fs "patternProperties") &&
      goodObjectValued g (lookupField fs "additionalProperties")
    | _ => false

def goodSchema (v : J) : Bool := goodF (J.size v) v

def sstepCombinator (key : String) (st : J → J) (schema a : J) : J :=
  match schema.get key with
  | some (.arr es) => a.set key (.arr (es.map st))
  | _ => a

def sstepNot (st : J → J) (schema a : J) : J :=
  match schema.get "not" with
  | some n => if truthyJ n then a.set "not" (st n) else a
  | none => a

def sstepItems (st : J → J) (schema a : J) : J :=
  match schema.get "items" with
  | some (.arr es) => a.set "items" (.arr (es.map st))
  | some it => if truthyJ it then a.set "items" (st it) else a
  | none => a

def sstepObjectValued (key : String) (st : J → J) (schema a : J) : J :=
  match schema.get key with
  | some v => if truthyJ v && isObjOrArr v then a.set key (st v) else a
  | none => a

def sstepProps (key : String) (st : J → J) (schema a : J) : J :=
  match schema.get key with
  | some (.obj fs) => a.set key (.obj (fs.map (fun kv => (kv.1, st kv.2))))
  | some (.arr es) => a.set key (.arr (es.map st))
  | _ => a

/-- The transform the specification describes for reference-free schemas:
remove the Swagger-only and `x-` keys at every converter-traversed node,
recursing exactly where `convertSubSchema` recurses, changing nothing else. -/
def stripF : Nat → J → J
  | 0, v => v
  | fuel + 1, schema =>
    let st := fun (s : J) => stripF fuel s
    sstepObjectValued "additionalProperties" st schema
      (sstepProps "patternProperties" st schema
        (sstepProps "properties" st schema
          (sstepObjectValued "additionalItems" st schema
            (sstepItems st schema
              (sstepNot st schema
                (sstepCombinator "oneOf" st schema
                  (sstepCombinator "anyOf" st schema
                    (sstepCombinator "allOf" st schema
                      (omitExtensions (omitSwaggerKeys schema))))))))))

def stripSchema (v : J) : J := stripF (J.size v) v

/-! ### Basic lemmas on the object model -/

theorem lookupField_setField_same (fs : List (String × J)) (k : String) (v : J) :
    lookupField (setField fs k v) k = some v := by
  induction fs with
  | nil => simp [setField, lookupField]
  | cons kv fs ih =>
    cases kv with
    | mk k0 w =>
      by_cases h : k0 = k
      · simp [setField, lookupField, h]
      · simp [setField, lookupField, h, ih]

theorem lookupField_setField_ne (fs : List (String × J)) (k k2 : String) (v : J)
    (h : k2 ≠ k) : lookupField (setField fs k v) k2 = lookupField fs k2 := by
  induction fs with
  | nil => simp [setField, lookupField, Ne.symm h]
  | cons kv fs ih =>
    cases kv with
    | mk k0 w =>
      by_cases h0 : k0 = k
      · subst h0
        simp [setField, lookupField, Ne.symm h]
      · simp only [setField, if_neg h0, lookupField]
        by_cases h2 : k0 = k2 <;> simp [h2, ih]

theorem get_set_same (fs : List (String × J)) (k : String) (v : J) :
    (J.set (.obj fs) k v).get k = some v := by
  simp [J.set, J.get, lookupField_setField_same]

theorem get_set_ne (w : J) (k k2 : String) (v : J) (h : k2 ≠ k) :
    (J.set w k v).get k2 = w.get k2 := by
  cases w <;> simp [J.set, J.get, lookupField_setField_ne _ _ _ _ h]

theorem lookupField_filter_of_pred (fs : List (String × J)) (p : String × J → Bool)
    (k : String) (hp : ∀ v : J, p (k, v) = true) :
    lookupField (fs.filter p) k = lookupField fs k := by
  induction fs with
  | nil => simp [lookupField]
  | cons kv fs ih =>
    cases kv with
    | mk k0 w =>
      by_cases h : k0 = k
      · subst h
        simp [List.filter, hp w, lookupField, ih]
      · cases hpw : p (k0, w) <;> simp [List.filter, hpw, lookupField, h, ih]

theorem lookupField_filter_none (fs : List (String × J)) (p : String × J → Bool)
    (k : String) (h : lookupField fs k = none) :
    lookupField (fs.filter p) k = none := by
  induction fs with
  | nil => simp [lookupField]
  | cons kv fs ih =>
    cases kv with
    | mk k0 w =>
      by_cases hk : k0 = k
      · subst hk; simp [lookupField] at h
      · simp only [lookupField, if_neg hk] at h
        cases hpw : p (k0, w) <;> simp [List.filter, hpw, lookupField, hk, ih h]

theorem lookupField_append_left (xs ys : List (String × J)) (k : String) (v : J)
    (h : lookupField xs k = some v) : lookupField (xs ++ ys) k = some v := by
  induction xs with
  | nil => simp [lookupField] at h
  | cons kv xs ih =>
    cases kv with
    | mk k0 w =>
      by_cases hk : k0 = k
      · subst hk; simp_all [lookupField]
      · simp_all [lookupField, hk]

theorem lookupField_append_right_fresh (xs : List (String × J)) (k : String) (v : J)
    (h : lookupField xs k = none) : lookupField (xs ++ [(k, v)]) k = some v := by
  induction xs with
  | nil => simp [lookupField]
  | cons kv xs ih =>
    cases kv with
    | mk k0 w =>
      by_cases hk : k0 = k
      · subst hk; simp [lookupField] at h
      · simp_all [lookupField, hk]

theorem lookupField_append_ne_none (xs ys : List (String × J)) (k : String)
    (h : lookupField (xs ++ ys) k = none) : lookupField xs k = none := by
  induction xs with
  | nil => simp [lookupField]
  | cons kv xs ih =>
    cases kv with
    | mk k0 w =>
      by_cases hk : k0 = k
      · subst hk; simp [lookupField] at h
      · simp_all [lookupField, hk]

theorem lookupField_mem (fs : List (String × J)) (k : String) (v : J)
    (h : lookupField fs k = some v) : (k, v) ∈ fs := by
  induction fs with
  | nil => simp [lookupField] at h
  | cons kv fs ih =>
    cases kv with
    | mk k0 w =>
      by_cases hk : k0 = k
      · subst hk
        simp [lookupField] at h
        simp [h]
      · simp only [lookupField, if_neg hk] at h
        exact List.mem_cons_of_mem _ (ih h)

/-! ### Key preservation through the conversion steps -/

theorem stepCombinator_get (key : String) (conv : J → List J → Except String (J × List J))
    (schema : J) (st st2 : J × List J) (h : stepCombinator key conv schema st = .ok st2)
    (k : String) (hk : k ≠ key) : (st2.1).get k = (st.1).get k := by
  unfold stepCombinator at h
  split at h
  · rename_i es heq
    cases hc : convertList conv es st.2 with
    | error e => rw [hc] at h; simp [exBind] at h
    | ok q =>
      rw [hc] at h
      simp only [exBind] at h
      cases h
      simp [get_set_ne _ _ _ _ hk]
  · cases h; rfl

theorem stepNot_get (conv : J → List J → Except String (J × List J))
    (schema : J) (st st2 : J × List J) (h : stepNot conv schema st = .ok st2)
    (k : String) (hk : k ≠ "not") : (st2.1).get k = (st.1).get k := by
  unfold stepNot at h
  split at h
  · rename_i n heq
    split at h
    · cases hc : conv n st.2 with
      | error e => rw [hc] at h; simp [exBind] at h
      | ok p =>
        rw [hc] at h
        simp only [exBind] at h
        cases h
        simp [get_set_ne _ _ _ _ hk]
    · cases h; rfl
  · cases h; rfl

theorem stepItems_get (conv : J → List J → Except String (J × List J))
    (schema : J) (st st2 : J × List J) (h : stepItems conv schema st = .ok st2)
    (k : String) (hk : k ≠ "items") : (st2.1).get k = (st.1).get k := by
  unfold stepItems at h
  split at h
  · rename_i es heq
    cases hc : convertList conv es st.2 with
    | error e => rw [hc] at h; simp [exBind] at h
    | ok q =>
      rw [hc] at h
      simp only [exBind] at h
      cases h
      simp [get_set_ne _ _ _ _ hk]
  · rename_i it heq hne
    split at h
    · cases hc : conv it st.2 with
      | error e => rw [hc] at h; simp [exBind] at h
      | ok p =>
        rw [hc] at h
        simp only [exBind] at h
        cases h
        simp [get_set_ne _ _ _ _ hk]
    · cases h; rfl
  · cases h; rfl

theorem stepObjectValued_get (key : String) (conv : J → List J → Except String (J × List J))
    (schema : J) (st st2 : J × List J) (h : stepObjectValued key conv schema st = .ok st2)
    (k : String) (hk : k ≠ key) : (st2.1).get k = (st.1).get k := by
  unfold stepObjectValued at h
  split at h
  · rename_i v heq
    split at h
    · cases hc : conv v st.2 with
      | error e => rw [hc] at h; simp [exBind] at h
      | ok p =>
        rw [hc] at h
        simp only [exBind] at h
        cases h
        simp [get_set_ne _ _ _ _ hk]
    · cases h; rfl
  · cases h; rfl

theorem stepProps_get (key : String) (conv : J → List J → Except String (J × List J))
    (schema : J) (st st2 : J × List J) (h : stepProps key conv schema st = .ok st2)
    (k : String) (hk : k ≠ key) : (st2.1).get k = (st.1).get k := by
  unfold stepProps at h
  split at h
  · rename_i fs heq
    cases hc : convertFields conv fs st.2 with
    | error e => rw [hc] at h; simp [exBind] at h
    | ok q =>
      rw [hc] at h
      simp only [exBind] at h
      cases h
      simp [get_set_ne _ _ _ _ hk]
  · rename_i es heq
    cases hc : convertList conv es st.2 with
    | error e => rw [hc] at h; simp [exBind] at h
    | ok q =>
      rw [hc] at h
      simp only [exBind] at h
      cases h
      simp [get_set_ne _ _ _ _ hk]
  · cases h; rfl

/-- The structural-recursion phase touches only the nine structural keys. -/
theorem convertChildren_get (conv : J → List J → Except String (J × List J))
    (schema : J) (st st2 : J × List J) (h : convertChildren conv schema st = .ok st2)
    (k : String)
    (hk : k ∉ (["allOf", "anyOf", "oneOf", "not", "items", "additionalItems",
      "properties", "patternProperties", "additionalProperties"] : List String)) :
    (st2.1).get k = (st.1).get k := by
  simp only [List.mem_cons, List.mem_singleton, not_or] at hk
  obtain ⟨h1, h2, h3, h4, h5, h6, h7, h8, h9, -⟩ := hk
  unfold convertChildren at h
  cases hs1 : stepCombinator "allOf" conv schema st with
  | error e => rw [hs1] at h; simp [exBind] at h
  | ok s1 =>
  rw [hs1] at h; rw [exBind_ok] at h
  cases hs2 : stepCombinator "anyOf" conv schema s1 with
  | error e => rw [hs2] at h; simp [exBind] at h
  | ok s2 =>
  rw [hs2] at h; rw [exBind_ok] at h
  cases hs3 : stepCombinator "oneOf" conv schema s2 with
  | error e => rw [hs3] at h; simp [exBind] at h
  | ok s3 =>
  rw [hs3] at h; rw [exBind_ok] at h
  cases hs4 : stepNot conv schema s3 with
  | error e => rw [hs4] at h; simp [exBind] at h
  | ok s4 =>
  rw [hs4] at h; rw [exBind_ok] at h
  cases hs5 : stepItems conv schema s4 with
  | error e => rw [hs5] at h; simp [exBind] at h
  | ok s5 =>
  rw [hs5] at h; rw [exBind_ok] at h
  cases hs6 : stepObjectValued "additionalItems" conv schema s5 with
  | error e => rw [hs6] at h; simp [exBind] at h
  | ok s6 =>
  rw [hs6] at h; rw [exBind_ok] at h
  cases hs7 : stepProps "properties" conv schema s6 with
  | error e => rw [hs7] at h; simp [exBind] at h
  | ok s7 =>
  rw [hs7] at h; rw [exBind_ok] at h
  cases hs8 : stepProps "patternProperties" conv schema s7 with
  | error e => rw [hs8] at h; simp [exBind] at h
  | ok s8 =>
  rw [hs8] at h; rw [exBind_ok] at h
  rw [stepObjectValued_get _ _ _ _ _ h _ h9,
    stepProps_get _ _ _ _ _ hs8 _ h8,
    stepProps_get _ _ _ _ _ hs7 _ h7,
    stepObjectValued_get _ _ _ _ _ hs6 _ h6,
    stepItems_get _ _ _ _ hs5 _ h5,
    stepNot_get _ _ _ _ hs4 _ h4,
    stepCombinator_get _ _ _ _ _ hs3 _ h3,
    stepCombinator_get _ _ _ _ _ hs2 _ h2,
    stepCombinator_get _ _ _ _ _ hs1 _ h1]

theorem lookupField_filter_of_pred_false (fs : List (String × J)) (p : String × J → Bool)
    (k : String) (hp : ∀ v : J, p (k, v) = false) :
    lookupField (fs.filter p) k = none := by
  induction fs with
  | nil => simp [lookupField]
  | cons kv fs ih =>
    cases kv with
    | mk k0 w =>
      by_cases hk : k0 = k
      · subst hk; simp [List.filter, hp w, ih]
      · cases hpw : p (k0, w) <;> simp [List.filter, hpw, lookupField, hk, ih]

/-- A key that is neither Swagger-only nor an extension survives the two
omit passes unchanged. -/
theorem omitted_get_obj (fs : List (String × J)) (k : String)
    (h1 : swaggerOnlyKeys.contains k = false) (h2 : strStartsWith k "x-" = false) :
    (omitExtensions (omitSwaggerKeys (.obj fs))).get k = lookupField fs k := by
  unfold omitExtensions omitSwaggerKeys
  simp only [J.toPairs, J.get]
  rw [lookupField_filter_of_pred _ _ k (fun v => by simp only [h2, Bool.not_false]),
    lookupField_filter_of_pred _ _ k (fun v => by simp only [h1, Bool.not_false])]

/-- The omit passes drop the `example` key. -/
theorem omitted_get_example (v : J) :
    (omitExtensions (omitSwaggerKeys v)).get "example" = none := by
  unfold omitExtensions omitSwaggerKeys
  simp only [J.toPairs, J.get]
  apply lookupField_filter_none
  apply lookupField_filter_of_pred_false
  intro w
  simp [swaggerOnlyKeys]

/-- `fileStep` touches only `type`. -/
theorem fileStep_get (schema a : J) (k : String) (hk : k ≠ "type") :
    (fileStep schema a).get k = a.get k := by
  unfold fileStep
  split
  · exact get_set_ne _ _ _ _ hk
  · rfl

/-- `exampleStep` touches only `examples`. -/
theorem exampleStep_get (schema a a2 swagger : J) (h : exampleStep schema a swagger = .ok a2)
    (k : String) (hk : k ≠ "examples") : a2.get k = a.get k := by
  unfold exampleStep at h
  split at h
  · split at h
    · rename_i ex hex htr
      cases hd : dereference ex swagger none none with
      | error e => rw [hd] at h; simp [exBind] at h
      | ok d =>
        rw [hd] at h
        simp only [exBind] at h
        cases h
        exact get_set_ne _ _ _ _ hk
    · cases h; rfl
  · cases h; rfl

theorem nullableType_get (a : J) (k : String) (h1 : k ≠ "type") :
    (nullableType a).get k = a.get k := by
  unfold nullableType
  split
  · exact get_set_ne _ _ _ _ h1
  · split
    · exact get_set_ne _ _ _ _ h1
    · rfl

theorem nullableEnum_get (a : J) (k : String) (h2 : k ≠ "enum") :
    (nullableEnum a).get k = a.get k := by
  unfold nullableEnum
  split
  · split
    · exact get_set_ne _ _ _ _ h2
    · rfl
  · rfl

/-- `nullableStep` touches only `type` and `enum`. -/
theorem nullableStep_get (schema a : J) (k : String) (h1 : k ≠ "type") (h2 : k ≠ "enum") :
    (nullableStep schema a).get k = a.get k := by
  unfold nullableStep
  split
  · rw [nullableEnum_get _ _ h2, nullableType_get _ _ h1]
  · rfl

/-- Unfolding of `convertSubSchemaF` when the `$ref` guard fails. -/
theorem convertSubSchemaF_main (fuel : Nat) (schema : J) (refs : List J) (swagger : J)
    (hr : truthy (schema.get "$ref") = false) :
    convertSubSchemaF (fuel + 1) schema refs swagger =
      exBind (exampleStep schema (fileStep schema (omitExtensions (omitSwaggerKeys schema))) swagger)
        (fun a => convertChildren (fun s r => convertSubSchemaF fuel s r swagger) schema
          (nullableStep schema a, refs)) := by
  simp [convertSubSchemaF, hr]

theorem exampleStep_noop (schema a swagger : J) (hex : truthy (schema.get "example") = false) :
    exampleStep schema a swagger = .ok a := by
  unfold exampleStep
  cases h : schema.get "example" with
  | none => rfl
  | some ex =>
    rw [h] at hex
    simp only [truthy] at hex
    simp [hex]

theorem fileStep_noop (schema a : J) (h : ¬schema.get "type" = some (.str "file")) :
    fileStep schema a = a := by
  unfold fileStep
  exact if_neg h

theorem get_obj_of_some (v : J) (k : String) (w : J) (hk : strToNat? k = none)
    (h : v.get k = some w) : ∃ fs, v = .obj fs := by
  cases v with
  | obj fs => exact ⟨fs, rfl⟩
  | arr es => simp [J.get, hk] at h
  | null => simp [J.get] at h
  | bool b => simp [J.get] at h
  | num n => simp [J.get] at h
  | str s => simp [J.get] at h

theorem nullableType_widen (a t : J) (ht : a.get "type" = some t) (htt : truthyJ t = true) :
    nullableType a = a.set "type" (.arr [t, .str "null"]) := by
  unfold nullableType
  rw [ht]
  simp [truthy, htt]

theorem nullableEnum_push (a : J) (es : List J)
    (he : a.get "enum" = some (.arr es)) (hn : es.contains J.null = false) :
    nullableEnum a = a.set "enum" (.arr (es ++ [J.null])) := by
  unfold nullableEnum
  rw [he]
  have hmem : J.null ∉ es := by simpa using hn
  simp [hmem]

/-- C1.  The claim says that with both `type` and `enum` present under a
truthy `x-nullable` only the `type` branch fires and the `enum` is left
unmodified.  The enum branch of the source is an independent `if`, not an
`else`, so both fire: the counterexample converts
`{type:'string', enum:['a'], 'x-nullable':true}` and receives
`{type:['string','null'], enum:['a',null]}` — the enum did not stay
`['a']`. -/
theorem C1_counterexample :
    convertSchema (.obj [("type", .str "string"), ("enum", .arr [.str "a"]),
        ("x-nullable", .bool true)]) (.obj []) (.obj []) true =
      .ok (.obj [("type", .arr [.str "string", .str "null"]),
        ("enum", .arr [.str "a", J.null])]) ∧
    J.arr [.str "a", J.null] ≠ J.arr [.str "a"] :=
  ⟨rfl, by decide⟩

/-- C1 (amended).  When a schema carries a truthy `x-nullable` together with
both a truthy non-`file` `type` and an array `enum` not containing `null`,
the converted node has its `type` widened to `[type, "null"]` AND `null`
appended to its `enum`: the two nullable branches are not mutually
exclusive. -/
theorem C1_theorem (fuel : Nat) (schema node swagger : J) (refs refs2 : List J)
    (t : J) (es : List J)
    (hr : truthy (schema.get "$ref") = false)
    (htype : schema.get "type" = some t) (htt : truthyJ t = true)
    (hfile : ¬schema.get "type" = some (.str "file"))
    (henum : schema.get "enum" = some (.arr es)) (hn : es.contains J.null = false)
    (hx : truthy (schema.get "x-nullable") = true)
    (hex : truthy (schema.get "example") = false)
    (hok : convertSubSchemaF fuel schema refs swagger = .ok (node, refs2)) :
    node.get "type" = some (.arr [t, .str "null"]) ∧
    node.get "enum" = some (.arr (es ++ [J.null])) := by
  obtain ⟨fs, rfl⟩ := get_obj_of_some schema "type" t (by decide) htype
  cases fuel with
  | zero => simp [convertSubSchemaF] at hok
  | succ n =>
    rw [convertSubSchemaF_main n _ _ _ hr] at hok
    rw [exampleStep_noop _ _ _ hex, exBind_ok] at hok
    rw [fileStep_noop _ _ hfile] at hok
    have hA : ∃ gs, omitExtensions (omitSwaggerKeys (.obj fs)) = .obj gs := ⟨_, rfl⟩
    obtain ⟨gs, hgs⟩ := hA
    have hat : (omitExtensions (omitSwaggerKeys (.obj fs))).get "type" = some t := by
      rw [omitted_get_obj fs "type" (by decide) (by decide)]
      exact htype
    have hae : (omitExtensions (omitSwaggerKeys (.obj fs))).get "enum" = some (.arr es) := by
      rw [omitted_get_obj fs "enum" (by decide) (by decide)]
      exact henum
    have hnull : nullableStep (.obj fs) (omitExtensions (omitSwaggerKeys (.obj fs))) =
        ((omitExtensions (omitSwaggerKeys (.obj fs))).set "type"
          (.arr [t, .str "null"])).set "enum" (.arr (es ++ [J.null])) := by
      unfold nullableStep
      rw [if_pos hx, nullableType_widen _ _ hat htt, nullableEnum_push]
      · rw [get_set_ne _ _ _ _ (by decide)]
        exact hae
      · exact hn
    rw [hnull] at hok
    have hty := convertChildren_get _ _ _ _ hok "type" (by decide)
    have hen := convertChildren_get _ _ _ _ hok "enum" (by decide)
    simp only at hty hen
    rw [hty, hen, hgs]
    constructor
    · rw [get_set_ne _ _ _ _ (by decide)]
      rw [← hgs]
      rw [hgs]
      exact get_set_same gs "type" _
    · have : J.set (.obj gs) "type" (.arr [t, .str "null"]) = .obj (setField gs "type" (.arr [t, .str "null"])) := rfl
      rw [this]
      exact get_set_same _ "enum" _

/-- Witness for C1: the amended theorem applied at the counterexample
input. -/
theorem C1_theorem_witness :
    (J.obj [("type", .arr [.str "string", .str "null"]),
      ("enum", .arr [.str "a", J.null])]).get "type" = some (.arr [.str "string", .str "null"]) ∧
    (J.obj [("type", .arr [.str "string", .str "null"]),
      ("enum", .arr [.str "a", J.null])]).get "enum" = some (.arr ([.str "a"] ++ [J.null])) :=
  C1_theorem 4
    (.obj [("type", .str "string"), ("enum", .arr [.str "a"]), ("x-nullable", .bool true)])
    (.obj [("type", .arr [.str "string", .str "null"]), ("enum", .arr [.str "a", J.null])])
    (.obj []) [] [] (.str "string") [.str "a"]
    rfl rfl rfl (by decide) rfl rfl rfl rfl rfl

/-- C2.  The claim says any invalid or unresolvable `$ref` aborts the whole
conversion "for every value of copyDefinitions", including under
`convertSchemaDefinitions`.  With `copyDefinitions = false` references are
collected but never resolved, so conversion succeeds: a schema whose `$ref`
does not even start with `#` converts without error, and
`convertSchemaDefinitions` (which passes `copyDefinitions = false`) returns
a result although its single entry holds an unresolvable reference. -/
theorem C2_counterexample :
    convertSchema (.obj [("$ref", .str "definitions/X")]) (.obj [("definitions", .obj [])])
        (.obj []) false = .ok (.obj [("$ref", .str "definitions/X")]) ∧
    lookupReference (.str "definitions/X") (.obj [("definitions", .obj [])]) (some 3) =
      .error "Schema reference must start with document root (#)" ∧
    convertSchemaDefinitions (some (.obj [("X", .obj [("$ref", .str "#/definitions/Missing")])])) =
      .ok (.obj [("X", .obj [("$ref", .str "#/definitions/Missing")])]) ∧
    lookupReference (.str "#/definitions/Missing")
        (.obj [("definitions", .obj [("X", .obj [("$ref", .str "#/definitions/Missing")])])])
        (some 3) =
      .error "Reference to #/definitions/Missing does not exist" :=
  ⟨rfl, rfl, rfl, rfl⟩

/-- C2 (amended).  A top-level reference that fails to resolve aborts the
conversion with that error when `copyDefinitions` is true; with
`copyDefinitions = false` the same schema converts successfully, the invalid
reference passing through unresolved. -/
theorem C2_theorem (s : String) (root swagger : J) (e : String)
    (hs : (s != "") = true)
    (herr : lookupReference (.str s) root (some 3) = .error e) :
    convertSchema (.obj [("$ref", .str s)]) root swagger true = .error e ∧
    convertSchema (.obj [("$ref", .str s)]) root swagger false = .ok (.obj [("$ref", .str s)]) := by
  have htr : truthy ((J.obj [("$ref", .str s)]).get "$ref") = true := by
    simp [J.get, lookupField, truthy, truthyJ]
    simpa using hs
  have hconv : convertSubSchema (.obj [("$ref", .str s)]) [] swagger =
      .ok (.obj [("$ref", .str s)], [.str s]) := by
    show convertSubSchemaF 2 _ _ _ = _
    show convertSubSchemaF (1 + 1) _ _ _ = _
    rw [Nat.add_comm]
    unfold convertSubSchemaF
    rw [if_pos htr]
    rfl
  have hdrain : resolveRefsF (resolveBound [J.str s] root) [J.str s] [] root = .error e := by
    show resolveRefsF (1 + (J.size root + 2) * (J.size root + 2)) _ _ _ = _
    rw [Nat.add_comm]
    unfold resolveRefsF
    show exBind (lookupReference (.str s) root (some 3)) _ = _
    rw [herr]
    rfl
  constructor
  · unfold convertSchema
    rw [hconv, exBind_ok]
    simp only [List.length, Bool.true_and]
    rw [if_pos (by decide)]
    rw [hdrain]
    rfl
  · unfold convertSchema
    rw [hconv, exBind_ok]
    simp only [Bool.false_and, if_neg]
    rw [if_neg (by decide)]
    rw [exBind_ok]
    simp [Bool.and_false]

/-- Witness for C2: the amended theorem applied to an invalid reference. -/
theorem C2_theorem_witness :
    convertSchema (.obj [("$ref", .str "definitions/X")]) (.obj [("definitions", .obj [])])
        (.obj []) true = .error "Schema reference must start with document root (#)" ∧
    convertSchema (.obj [("$ref", .str "definitions/X")]) (.obj [("definitions", .obj [])])
        (.obj []) false = .ok (.obj [("$ref", .str "definitions/X")]) :=
  C2_theorem "definitions/X" (.obj [("definitions", .obj [])]) (.obj [])
    "Schema reference must start with document root (#)" (by decide) rfl

/-- C8.  Depth-limited lookup: resolving any nested-path reference
`#/definitions/<id>/<subpath...>` with depth 3 returns the owning
definition itself, not the value at the sub-path; and every successful
lookup returns as `id` the third reference segment, never the final one. -/
theorem C8_theorem :
    (∀ (s : String) (root defs d : J) (id : String) (sub : List String),
      refSplit s = "#" :: "definitions" :: id :: sub → sub ≠ [] →
      root.get "definitions" = some defs → defs.get id = some d →
      lookupReference (.str s) root (some 3) = .ok { id := some id, referenced := d }) ∧
    (∀ (s : String) (root : J) (depth : Option Nat) (res : LookupResult),
      lookupReference (.str s) root depth = .ok res → res.id = (refSplit s).get? 2) := by
  constructor
  · intro s root defs d id sub hsplit hsub hd hid
    simp only [lookupReference, hsplit]
    rw [if_neg (by decide : ¬("#" ≠ "#"))]
    rw [if_neg (by decide : ¬("definitions" ≠ "definitions"))]
    rw [hd]
    simp only [walkDefs, hid]
    rw [if_pos (by decide : depthHit (some 3) (2 + 1) = true)]
    rfl
  · intro s root depth res h
    simp only [lookupReference] at h
    split at h
    · simp at h
    · rename_i p0 rest heq
      split at h
      · simp at h
      · rename_i hp0
        split at h
        · simp at h
        · rename_i p1 rest2 heq2
          split at h
          · simp at h
          · split at h
            · simp at h
            · simp only [Except.ok.injEq] at h
              subst h
              have hfin : ∀ (T : List String) (q0 q1 : String) (w : J),
                  ({ id := T.head?, referenced := w } : LookupResult).id =
                    (q0 :: q1 :: T).get? 2 := by
                intro T q0 q1 w
                cases T <;> rfl
              rw [heq]
              exact hfin _ _ _ _

/-- Witness for C8: the depth-3 lookup applied to a concrete root. -/
theorem C8_theorem_witness :
    lookupReference (.str "#/definitions/User/properties/name")
        (.obj [("definitions", .obj [("User",
          .obj [("properties", .obj [("name", .obj [("type", .str "string")])])])])])
        (some 3) =
      .ok { id := some "User",
            referenced := .obj [("properties",
              .obj [("name", .obj [("type", .str "string")])])] } :=
  C8_theorem.1 "#/definitions/User/properties/name" _ _ _ "User" ["properties", "name"]
    rfl (by decide) rfl rfl

/-- Unfolding of the worklist loop on an empty list. -/
theorem resolveRefsF_succ_none (n : Nat) (refs : List J) (defs : List (String × J)) (root : J)
    (hp : popLast refs = none) : resolveRefsF (n + 1) refs defs root = .ok defs := by
  unfold resolveRefsF
  rw [hp]

/-- Unfolding of the worklist loop on a popped reference. -/
theorem resolveRefsF_succ_some (n : Nat) (refs : List J) (defs : List (String × J)) (root : J)
    (rest : List J) (r : J) (hp : popLast refs = some (rest, r)) :
    resolveRefsF (n + 1) refs defs root =
      exBind (lookupReference r root (some 3)) fun lk =>
        if lookupField defs (keyOfId lk.id) = none then
          resolveRefsF n (rest ++ findReferences lk.referenced)
            (defs ++ [(keyOfId lk.id, lk.referenced)]) root
        else resolveRefsF n rest defs root := by
  conv_lhs => rw [resolveRefsF]
  rw [hp]

/-- Definitions already copied are never overwritten by the worklist loop:
an id, once bound, keeps its first value through any further resolution. -/
theorem resolveRefs_mono : ∀ (fuel : Nat) (refs : List J) (defs : List (String × J)) (root : J)
    (defs2 : List (String × J)) (k : String) (v : J),
    lookupField defs k = some v → resolveRefsF fuel refs defs root = .ok defs2 →
    lookupField defs2 k = some v := by
  intro fuel
  induction fuel with
  | zero => intro refs defs root defs2 k v hk h; simp [resolveRefsF] at h
  | succ n ih =>
    intro refs defs root defs2 k v hk h
    cases hp : popLast refs with
    | none =>
      rw [resolveRefsF_succ_none n refs defs root hp] at h
      simp only [Except.ok.injEq] at h
      subst h
      exact hk
    | some pr =>
      obtain ⟨rest, r⟩ := pr
      rw [resolveRefsF_succ_some n refs defs root rest r hp] at h
      cases hl : lookupReference r root (some 3) with
      | error e => rw [hl] at h; simp [exBind] at h
      | ok lk =>
        rw [hl] at h
        rw [exBind_ok] at h
        split at h
        · exact ih _ _ _ _ _ _ (lookupField_append_left _ _ _ _ hk) h
        · exact ih _ _ _ _ _ _ hk h

/-- C4.  First write wins in the copied-definitions map (general), and the
concrete two-level closure: a schema referencing `A` twice, where `A`
references `B` twice, copies each of `A` and `B` exactly once, verbatim. -/
theorem C4_theorem :
    (∀ (fuel : Nat) (refs : List J) (defs : List (String × J)) (root : J)
      (defs2 : List (String × J)) (k : String) (v : J),
      lookupField defs k = some v → resolveRefsF fuel refs defs root = .ok defs2 →
      lookupField defs2 k = some v) ∧
    convertSchema
      (.obj [("properties", .obj [("x", .obj [("$ref", .str "#/definitions/A")]),
        ("y", .obj [("$ref", .str "#/definitions/A")])])])
      (.obj [("definitions", .obj [
        ("A", .obj [("type", .str "object"), ("properties", .obj [
          ("b1", .obj [("$ref", .str "#/definitions/B")]),
          ("b2", .obj [("$ref", .str "#/definitions/B")])])]),
        ("B", .obj [("type", .str "string")])])])
      (.obj []) true =
    .ok (.obj [("properties", .obj [("x", .obj [("$ref", .str "#/definitions/A")]),
        ("y", .obj [("$ref", .str "#/definitions/A")])]),
      ("definitions", .obj [
        ("A", .obj [("type", .str "object"), ("properties", .obj [
          ("b1", .obj [("$ref", .str "#/definitions/B")]),
          ("b2", .obj [("$ref", .str "#/definitions/B")])])]),
        ("B", .obj [("type", .str "string")])])]) :=
  ⟨resolveRefs_mono, rfl⟩

/-- Witness for C4: the no-overwrite statement applied at a concrete map. -/
theorem C4_theorem_witness :
    lookupField [("A", J.null)] "A" = some J.null :=
  C4_theorem.1 1 [] [("A", J.null)] (.obj []) [("A", J.null)] "A" J.null rfl rfl

/-- C5.  Root-reference normalization: when the converted top level is a
bare `{$ref}` node and `copyDefinitions` is true, the copied definition
under the reference id is returned directly when it holds no reference at
all, and otherwise the result is `{allOf:[{$ref}], definitions}` — in
particular a self-referential `Node` yields the `allOf` wrapper, never an
inlined infinite structure, while a closed `Leaf` is inlined. -/
theorem C5_theorem :
    (∀ (schema root swagger rv : J) (refs : List J) (defs : List (String × J))
      (lk : LookupResult) (d : J),
      truthyJ rv = true →
      convertSubSchema schema [] swagger = .ok (.obj [("$ref", rv)], refs) →
      refs.length ≠ 0 →
      resolveRefsF (resolveBound refs root) refs [] root = .ok defs →
      lookupReference rv root none = .ok lk →
      lookupField defs (keyOfId lk.id) = some d →
      convertSchema schema root swagger true =
        (if checkSchemaHasReferences d then
          .ok (.obj [("allOf", .arr [.obj [("$ref", rv)]]), ("definitions", .obj defs)])
        else .ok d)) ∧
    convertSchema (.obj [("$ref", .str "#/definitions/Node")])
      (.obj [("definitions", .obj [("Node",
        .obj [("properties", .obj [("next", .obj [("$ref", .str "#/definitions/Node")])])])])])
      (.obj []) true =
      .ok (.obj [("allOf", .arr [.obj [("$ref", .str "#/definitions/Node")]]),
        ("definitions", .obj [("Node",
          .obj [("properties", .obj [("next", .obj [("$ref", .str "#/definitions/Node")])])])])]) ∧
    convertSchema (.obj [("$ref", .str "#/definitions/Leaf")])
      (.obj [("definitions", .obj [("Leaf", .obj [("type", .str "string")])])])
      (.obj []) true = .ok (.obj [("type", .str "string")]) := by
  refine ⟨?_, rfl, rfl⟩
  intro schema root swagger rv refs defs lk d hrv hconv hlen hdrain hlk hd
  unfold convertSchema
  rw [hconv, exBind_ok]
  have hlb : (refs.length != 0) = true := by simpa using hlen
  simp only [hlb, Bool.and_self, if_pos]
  rw [hdrain, exBind_ok, exBind_ok]
  have hset : (J.obj [("$ref", rv)]).set "definitions" (.obj defs) =
      .obj [("$ref", rv), ("definitions", .obj defs)] := rfl
  rw [hset]
  have hgetref : (J.obj [("$ref", rv), ("definitions", .obj defs)]).get "$ref" = some rv := rfl
  rw [hgetref]
  simp only [truthy, hrv, Bool.and_self, if_pos]
  simp only [Option.getD_some]
  rw [hlk, exBind_ok]
  have hgetdefs : (J.obj [("$ref", rv), ("definitions", .obj defs)]).get "definitions" =
      some (.obj defs) := rfl
  rw [hgetdefs]
  have hgd : (J.obj defs).get (keyOfId lk.id) = some d := hd
  cases hc : checkSchemaHasReferences d <;> simp [hc, hgd]

/-- Witness for C5: the normalizer equation applied at the self-referential
`Node` input. -/
theorem C5_theorem_witness :
    convertSchema (.obj [("$ref", .str "#/definitions/Node")])
      (.obj [("definitions", .obj [("Node",
        .obj [("properties", .obj [("next", .obj [("$ref", .str "#/definitions/Node")])])])])])
      (.obj []) true =
      (if checkSchemaHasReferences
          (.obj [("properties", .obj [("next", .obj [("$ref", .str "#/definitions/Node")])])]) then
        .ok (.obj [("allOf", .arr [.obj [("$ref", .str "#/definitions/Node")]]),
          ("definitions", .obj [("Node",
            .obj [("properties", .obj [("next", .obj [("$ref", .str "#/definitions/Node")])])])])])
      else
        .ok (.obj [("properties", .obj [("next", .obj [("$ref", .str "#/definitions/Node")])])])) :=
  C5_theorem.1 (.obj [("$ref", .str "#/definitions/Node")])
    (.obj [("definitions", .obj [("Node",
      .obj [("properties", .obj [("next", .obj [("$ref", .str "#/definitions/Node")])])])])])
    (.obj []) (.str "#/definitions/Node") [.str "#/definitions/Node"]
    [("Node", .obj [("properties", .obj [("next", .obj [("$ref", .str "#/definitions/Node")])])])]
    { id := some "Node",
      referenced := .obj [("properties", .obj [("next", .obj [("$ref", .str "#/definitions/Node")])])] }
    (.obj [("properties", .obj [("next", .obj [("$ref", .str "#/definitions/Node")])])])
    (by decide) rfl (by decide) rfl rfl rfl

/-- C9.  The claim says an `example` of whatever value is turned into a
one-element `examples` array.  The check `if (schema.example)` is a
truthiness test, so a falsy example (`0`, `''`, `false`, `null`) is simply
dropped with the key and no `examples` is added. -/
theorem C9_counterexample :
    convertSchema (.obj [("example", .num 0)]) (.obj []) (.obj []) true = .ok (.obj []) ∧
    (J.obj []).get "examples" = none ∧ (J.obj []).get "example" = none :=
  ⟨rfl, rfl, rfl⟩

/-- C9 (amended).  For a truthy `example`, the converted node drops the
`example` key and carries `examples`, a one-element array holding the
example dereferenced against the Swagger document root. -/
theorem C9_theorem (fuel : Nat) (schema node swagger ex d : J) (refs refs2 : List J)
    (hr : truthy (schema.get "$ref") = false)
    (hex : schema.get "example" = some ex) (ht : truthyJ ex = true)
    (hd : dereference ex swagger none none = .ok d)
    (hok : convertSubSchemaF fuel schema refs swagger = .ok (node, refs2)) :
    node.get "examples" = some (.arr [d]) ∧ node.get "example" = none := by
  cases fuel with
  | zero => simp [convertSubSchemaF] at hok
  | succ n =>
    rw [convertSubSchemaF_main n _ _ _ hr] at hok
    have hstep : exampleStep schema (fileStep schema (omitExtensions (omitSwaggerKeys schema)))
        swagger =
        .ok ((fileStep schema (omitExtensions (omitSwaggerKeys schema))).set "examples"
          (.arr [d])) := by
      unfold exampleStep
      simp [hex, ht, hd, exBind]
    rw [hstep, exBind_ok] at hok
    have h1 := convertChildren_get _ _ _ _ hok "examples" (by decide)
    have h2 := convertChildren_get _ _ _ _ hok "example" (by decide)
    simp only at h1 h2
    rw [h1, h2]
    rw [nullableStep_get _ _ _ (by decide) (by decide),
      nullableStep_get _ _ _ (by decide) (by decide)]
    have hobj : ∃ gs, fileStep schema (omitExtensions (omitSwaggerKeys schema)) = .obj gs := by
      unfold fileStep
      split
      · exact ⟨_, rfl⟩
      · exact ⟨_, rfl⟩
    obtain ⟨gs, hgs⟩ := hobj
    constructor
    · rw [hgs]
      exact get_set_same gs "examples" _
    · rw [get_set_ne _ _ _ _ (by decide)]
      rw [fileStep_get _ _ _ (by decide), omitted_get_example]

/-- Witness for C9: the amended theorem applied at a schema whose example
dereferences a Swagger definition. -/
theorem C9_theorem_witness :
    (J.obj [("type", .str "object"),
      ("examples", .arr [.obj [("name", .str "doe")]])]).get "examples" =
        some (.arr [.obj [("name", .str "doe")]]) ∧
    (J.obj [("type", .str "object"),
      ("examples", .arr [.obj [("name", .str "doe")]])]).get "example" = none :=
  C9_theorem 3
    (.obj [("type", .str "object"), ("example", .obj [("$ref", .str "#/definitions/Ex")])])
    (.obj [("type", .str "object"), ("examples", .arr [.obj [("name", .str "doe")]])])
    (.obj [("definitions", .obj [("Ex", .obj [("name", .str "doe")])])])
    (.obj [("$ref", .str "#/definitions/Ex")])
    (.obj [("name", .str "doe")])
    [] [] rfl rfl rfl rfl rfl

/-! ### C7: conversion of well-shaped reference-free schemas is key
stripping -/

/-- The sub-schemas a combinator guard recurses into. -/
def elemsOf : Option J → List J
  | some (.arr es) => es
  | _ => []

/-- The sub-schema the `not` guard recurses into. -/
def singleOf : Option J → List J
  | some v => if truthyJ v then [v] else []
  | none => []

/-- The sub-schemas the `items` guard recurses into. -/
def itemsArgsOf : Option J → List J
  | some (.arr es) => es
  | some v => if truthyJ v then [v] else []
  | none => []

/-- The sub-schemas an `additionalItems`/`additionalProperties` guard
recurses into. -/
def objValArgsOf : Option J → List J
  | some v => if truthyJ v && isObjOrArr v then [v] else []
  | none => []

/-- The sub-schemas a `properties`/`patternProperties` guard recurses into. -/
def propsArgsOf : Option J → List J
  | some (.obj fs) => fs.map (fun kv => kv.2)
  | some (.arr es) => es
  | _ => []

theorem convertList_of_elems (conv : J → List J → Except String (J × List J)) (st : J → J) :
    ∀ (es : List J), (∀ e ∈ es, ∀ r, conv e r = .ok (st e, r)) →
    ∀ refs, convertList conv es refs = .ok (es.map st, refs) := by
  intro es
  induction es with
  | nil => intro h refs; rfl
  | cons e es ih =>
    intro h refs
    unfold convertList
    rw [h e (List.mem_cons_self _ _) refs, exBind_ok,
      ih (fun x hx => h x (List.mem_cons_of_mem _ hx)) refs, exBind_ok]
    rfl

theorem convertFields_of_values (conv : J → List J → Except String (J × List J)) (st : J → J) :
    ∀ (fs : List (String × J)), (∀ kv ∈ fs, ∀ r, conv kv.2 r = .ok (st kv.2, r)) →
    ∀ refs, convertFields conv fs refs = .ok (fs.map (fun kv => (kv.1, st kv.2)), refs) := by
  intro fs
  induction fs with
  | nil => intro h refs; rfl
  | cons kv fs ih =>
    intro h refs
    cases kv with
    | mk k v =>
      unfold convertFields
      rw [h (k, v) (List.mem_cons_self _ _) refs, exBind_ok,
        ih (fun x hx => h x (List.mem_cons_of_mem _ hx)) refs, exBind_ok]
      rfl

theorem stepCombinator_strip (key : String) (conv : J → List J → Except String (J × List J))
    (st : J → J) (schema a : J) (refs : List J)
    (hIH : ∀ e ∈ elemsOf (schema.get key), ∀ r, conv e r = .ok (st e, r)) :
    stepCombinator key conv schema (a, refs) = .ok (sstepCombinator key st schema a, refs) := by
  unfold stepCombinator sstepCombinator
  cases hk : schema.get key with
  | none => rfl
  | some v =>
    cases v with
    | arr es =>
      rw [hk] at hIH
      simp only [elemsOf] at hIH
      simp only [convertList_of_elems conv st es hIH refs, exBind_ok]
    | null => rfl
    | bool b => rfl
    | num x => rfl
    | str s => rfl
    | obj fs => rfl

theorem stepNot_strip (conv : J → List J → Except String (J × List J))
    (st : J → J) (schema a : J) (refs : List J)
    (hIH : ∀ e ∈ singleOf (schema.get "not"), ∀ r, conv e r = .ok (st e, r)) :
    stepNot conv schema (a, refs) = .ok (sstepNot st schema a, refs) := by
  unfold stepNot sstepNot
  cases hk : schema.get "not" with
  | none => rfl
  | some v =>
    rw [hk] at hIH
    simp only [singleOf] at hIH
    cases ht : truthyJ v with
    | false => simp [ht]
    | true =>
      simp only [ht, if_true] at hIH ⊢
      simp only [hIH v (List.mem_singleton_self v) refs, exBind_ok]

theorem stepItems_strip (conv : J → List J → Except String (J × List J))
    (st : J → J) (schema a : J) (refs : List J)
    (hIH : ∀ e ∈ itemsArgsOf (schema.get "items"), ∀ r, conv e r = .ok (st e, r)) :
    stepItems conv schema (a, refs) = .ok (sstepItems st schema a, refs) := by
  unfold stepItems sstepItems
  cases hk : schema.get "items" with
  | none => rfl
  | some v =>
    rw [hk] at hIH
    cases v with
    | arr es =>
      simp only [itemsArgsOf] at hIH
      simp only [convertList_of_elems conv st es hIH refs, exBind_ok]
    | null => simp [itemsArgsOf, truthyJ] at hIH ⊢
    | bool b =>
      simp only [itemsArgsOf] at hIH
      cases hb : truthyJ (.bool b) with
      | false => simp [hb]
      | true =>
        simp only [hb, if_true] at hIH ⊢
        simp only [hIH _ (List.mem_singleton_self _) refs, exBind_ok]
    | num x =>
      simp only [itemsArgsOf] at hIH
      cases hb : truthyJ (.num x) with
      | false => simp [hb]
      | true =>
        simp only [hb, if_true] at hIH ⊢
        simp only [hIH _ (List.mem_singleton_self _) refs, exBind_ok]
    | str s =>
      simp only [itemsArgsOf] at hIH
      cases hb : truthyJ (.str s) with
      | false => simp [hb]
      | true =>
        simp only [hb, if_true] at hIH ⊢
        simp only [hIH _ (List.mem_singleton_self _) refs, exBind_ok]
    | obj fs =>
      simp only [itemsArgsOf, truthyJ, if_true] at hIH ⊢
      simp only [hIH _ (List.mem_singleton_self _) refs, exBind_ok]

theorem stepObjectValued_strip (key : String) (conv : J → List J → Except String (J × List J))
    (st : J → J) (schema a : J) (refs : List J)
    (hIH : ∀ e ∈ objValArgsOf (schema.get key), ∀ r, conv e r = .ok (st e, r)) :
    stepObjectValued key conv schema (a, refs) = .ok (sstepObjectValued key st schema a, refs) := by
  unfold stepObjectValued sstepObjectValued
  cases hk : schema.get key with
  | none => rfl
  | some v =>
    rw [hk] at hIH
    simp only [objValArgsOf] at hIH
    cases hb : truthyJ v && isObjOrArr v with
    | false => simp [hb]
    | true =>
      simp only [hb, if_true] at hIH ⊢
      simp only [hIH _ (List.mem_singleton_self _) refs, exBind_ok]

theorem stepProps_strip (key : String) (conv : J → List J → Except String (J × List J))
    (st : J → J) (schema a : J) (refs : List J)
    (hIH : ∀ e ∈ propsArgsOf (schema.get key), ∀ r, conv e r = .ok (st e, r)) :
    stepProps key conv schema (a, refs) = .ok (sstepProps key st schema a, refs) := by
  unfold stepProps sstepProps
  cases hk : schema.get key with
  | none => rfl
  | some v =>
    rw [hk] at hIH
    cases v with
    | arr es =>
      simp only [propsArgsOf] at hIH
      simp only [convertList_of_elems conv st es hIH refs, exBind_ok]
    | obj fs =>
      simp only [propsArgsOf] at hIH
      simp only [convertFields_of_values conv st fs
        (fun kv hkv r => hIH kv.2 (List.mem_map_of_mem _ hkv) r) refs, exBind_ok]
    | null => rfl
    | bool b => rfl
    | num x => rfl
    | str s => rfl

theorem goodCombinator_elems (g : J → Bool) (ov : Option J) (h : goodCombinator g ov = true) :
    ∀ e ∈ elemsOf ov, g e = true := by
  cases ov with
  | none => intro e he; simp [elemsOf] at he
  | some v =>
    cases v <;> intro e he <;> simp [elemsOf] at he
    rename_i es
    simp only [goodCombinator, goodElems, List.all_eq_true] at h
    have := h e he
    simp only [Bool.and_eq_true] at this
    exact this.2

theorem goodSingle_elems (g : J → Bool) (ov : Option J) (h : goodSingle g ov = true) :
    ∀ e ∈ singleOf ov, g e = true := by
  cases ov with
  | none => intro e he; simp [singleOf] at he
  | some v =>
    intro e he
    simp only [singleOf] at he
    cases ht : truthyJ v with
    | false => simp [ht] at he
    | true =>
      simp only [ht, if_true, List.mem_singleton] at he
      subst he
      simp only [goodSingle, ht, if_true, Bool.and_eq_true] at h
      exact h.2

theorem goodItems_elems (g : J → Bool) (ov : Option J) (h : goodItems g ov = true) :
    ∀ e ∈ itemsArgsOf ov, g e = true := by
  cases ov with
  | none => intro e he; simp [itemsArgsOf] at he
  | some v =>
    cases v with
    | arr es =>
      intro e he
      simp only [itemsArgsOf] at he
      simp only [goodItems, goodElems, List.all_eq_true] at h
      have := h e he
      simp only [Bool.and_eq_true] at this
      exact this.2
    | null => intro e he; simp [itemsArgsOf, truthyJ] at he
    | bool b =>
      intro e he
      simp only [itemsArgsOf] at he
      cases ht : truthyJ (.bool b) with
      | false => simp [ht] at he
      | true =>
        simp only [ht, if_true, List.mem_singleton] at he
        subst he
        simp only [goodItems, ht, if_true, Bool.and_eq_true] at h
        exact h.2
    | num x =>
      intro e he
      simp only [itemsArgsOf] at he
      cases ht : truthyJ (.num x) with
      | false => simp [ht] at he
      | true =>
        simp only [ht, if_true, List.mem_singleton] at he
        subst he
        simp only [goodItems, ht, if_true, Bool.and_eq_true] at h
        exact h.2
    | str s =>
      intro e he
      simp only [itemsArgsOf] at he
      cases ht : truthyJ (.str s) with
      | false => simp [ht] at he
      | true =>
        simp only [ht, if_true, List.mem_singleton] at he
        subst he
        simp only [goodItems, ht, if_true, Bool.and_eq_true] at h
        exact h.2
    | obj fs =>
      intro e he
      simp only [itemsArgsOf, truthyJ, if_true, List.mem_singleton] at he
      subst he
      simp only [goodItems, truthyJ, if_true, Bool.and_eq_true] at h
      exact h.2

theorem goodObjectValued_elems (g : J → Bool) (ov : Option J)
    (h : goodObjectValued g ov = true) : ∀ e ∈ objValArgsOf ov, g e = true := by
  cases ov with
  | none => intro e he; simp [objValArgsOf] at he
  | some v =>
    cases v with
    | obj fs =>
      intro e he
      simp only [objValArgsOf, truthyJ, isObjOrArr, Bool.and_self, if_true,
        List.mem_singleton] at he
      subst he
      exact h
    | arr es => simp [goodObjectValued] at h
    | null => intro e he; simp [objValArgsOf, truthyJ] at he
    | bool b => intro e he; simp [objValArgsOf, isObjOrArr, Bool.and_false] at he
    | num x => intro e he; simp [objValArgsOf, isObjOrArr, Bool.and_false] at he
    | str s2 => intro e he; simp [objValArgsOf, isObjOrArr, Bool.and_false] at he

theorem goodProps_elems (g : J → Bool) (ov : Option J) (h : goodProps g ov = true) :
    ∀ e ∈ propsArgsOf ov, g e = true := by
  cases ov with
  | none => intro e he; simp [propsArgsOf] at he
  | some v =>
    cases v with
    | obj fs =>
      intro e he
      simp only [propsArgsOf, List.mem_map] at he
      obtain ⟨kv, hkv, rfl⟩ := he
      simp only [goodProps, List.all_eq_true] at h
      have := h kv hkv
      simp only [Bool.and_eq_true] at this
      exact this.2
    | arr es => simp [goodProps] at h
    | null => intro e he; simp [propsArgsOf] at he
    | bool b => intro e he; simp [propsArgsOf] at he
    | num x => intro e he; simp [propsArgsOf] at he
    | str s => intro e he; simp [propsArgsOf] at he

theorem nullableStep_noop (schema a : J) (h : truthy (schema.get "x-nullable") = false) :
    nullableStep schema a = a := by
  unfold nullableStep
  simp [h]

/-- On a well-shaped reference-free schema, `convertSubSchema` succeeds,
collects no references, and returns exactly the key-stripped schema. -/
theorem convert_eq_strip : ∀ (fuel : Nat) (schema : J) (refs : List J) (swagger : J),
    goodF fuel schema = true →
    convertSubSchemaF fuel schema refs swagger = .ok (stripF fuel schema, refs) := by
  intro fuel
  induction fuel with
  | zero => intro schema refs sw hg; simp [goodF] at hg
  | succ n ih =>
    intro schema refs sw hg
    cases schema with
    | null => simp [goodF] at hg
    | bool b => simp [goodF] at hg
    | num x => simp [goodF] at hg
    | str s => simp [goodF] at hg
    | arr es => simp [goodF] at hg
    | obj fs =>
      unfold goodF at hg
      simp only [Bool.and_eq_true, Bool.not_eq_true'] at hg
      obtain ⟨⟨⟨⟨⟨⟨⟨⟨⟨⟨⟨⟨h1, h2⟩, h3⟩, h4⟩, hAllOf⟩, hAnyOf⟩, hOneOf⟩, hNot⟩, hItems⟩,
        hAI⟩, hProps⟩, hPP⟩, hAP⟩ := hg
      have hfile : ¬(J.obj fs).get "type" = some (.str "file") := by
        intro hcon
        rw [show (J.obj fs).get "type" = lookupField fs "type" from rfl] at hcon
        rw [hcon] at h3
        simp at h3
      rw [convertSubSchemaF_main n _ _ _ (show truthy ((J.obj fs).get "$ref") = false from h1)]
      rw [exampleStep_noop _ _ _ (show truthy ((J.obj fs).get "example") = false from h4), exBind_ok]
      rw [fileStep_noop _ _ hfile]
      rw [nullableStep_noop _ _ (show truthy ((J.obj fs).get "x-nullable") = false from h2)]
      conv_rhs => rw [stripF]
      unfold convertChildren
      have hg2s : ∀ (hyp : Option J → List J) (hget : Option J)
          (hargs : ∀ e ∈ hyp hget, goodF n e = true),
          ∀ e ∈ hyp hget, ∀ r,
            convertSubSchemaF n e r sw = .ok (stripF n e, r) :=
        fun hyp hget hargs e he r => ih e r sw (hargs e he)
      rw [stepCombinator_strip "allOf" _ _ _ _ _
        (hg2s elemsOf ((J.obj fs).get "allOf") (goodCombinator_elems _ _ hAllOf)), exBind_ok]
      rw [stepCombinator_strip "anyOf" _ _ _ _ _
        (hg2s elemsOf ((J.obj fs).get "anyOf") (goodCombinator_elems _ _ hAnyOf)), exBind_ok]
      rw [stepCombinator_strip "oneOf" _ _ _ _ _
        (hg2s elemsOf ((J.obj fs).get "oneOf") (goodCombinator_elems _ _ hOneOf)), exBind_ok]
      rw [stepNot_strip _ _ _ _ _
        (hg2s singleOf ((J.obj fs).get "not") (goodSingle_elems _ _ hNot)), exBind_ok]
      rw [stepItems_strip _ _ _ _ _
        (hg2s itemsArgsOf ((J.obj fs).get "items") (goodItems_elems _ _ hItems)), exBind_ok]
      rw [stepObjectValued_strip "additionalItems" _ _ _ _ _
        (hg2s objValArgsOf ((J.obj fs).get "additionalItems")
          (goodObjectValued_elems _ _ hAI)), exBind_ok]
      rw [stepProps_strip "properties" _ _ _ _ _
        (hg2s propsArgsOf ((J.obj fs).get "properties") (goodProps_elems _ _ hProps)), exBind_ok]
      rw [stepProps_strip "patternProperties" _ _ _ _ _
        (hg2s propsArgsOf ((J.obj fs).get "patternProperties") (goodProps_elems _ _ hPP)),
        exBind_ok]
      rw [stepObjectValued_strip "additionalProperties" _ _ _ _ _
        (hg2s objValArgsOf ((J.obj fs).get "additionalProperties")
          (goodObjectValued_elems _ _ hAP))]

theorem sstepCombinator_get (key : String) (st : J → J) (schema a : J) (k : String)
    (hk : k ≠ key) : (sstepCombinator key st schema a).get k = a.get k := by
  unfold sstepCombinator
  split
  · exact get_set_ne _ _ _ _ hk
  · rfl

theorem sstepNot_get (st : J → J) (schema a : J) (k : String) (hk : k ≠ "not") :
    (sstepNot st schema a).get k = a.get k := by
  unfold sstepNot
  split
  · split
    · exact get_set_ne _ _ _ _ hk
    · rfl
  · rfl

theorem sstepItems_get (st : J → J) (schema a : J) (k : String) (hk : k ≠ "items") :
    (sstepItems st schema a).get k = a.get k := by
  unfold sstepItems
  split
  · exact get_set_ne _ _ _ _ hk
  · split
    · exact get_set_ne _ _ _ _ hk
    · rfl
  · rfl

theorem sstepObjectValued_get (key : String) (st : J → J) (schema a : J) (k : String)
    (hk : k ≠ key) : (sstepObjectValued key st schema a).get k = a.get k := by
  unfold sstepObjectValued
  split
  · split
    · exact get_set_ne _ _ _ _ hk
    · rfl
  · rfl

theorem sstepProps_get (key : String) (st : J → J) (schema a : J) (k : String)
    (hk : k ≠ key) : (sstepProps key st schema a).get k = a.get k := by
  unfold sstepProps
  split
  · exact get_set_ne _ _ _ _ hk
  · exact get_set_ne _ _ _ _ hk
  · rfl

/-- The stripping transform touches only the nine structural keys beyond the
omit passes. -/
theorem stripF_succ_get (n : Nat) (schema : J) (k : String)
    (hk : k ∉ (["allOf", "anyOf", "oneOf", "not", "items", "additionalItems",
      "properties", "patternProperties", "additionalProperties"] : List String)) :
    (stripF (n + 1) schema).get k = (omitExtensions (omitSwaggerKeys schema)).get k := by
  simp only [List.mem_cons, List.mem_singleton, not_or] at hk
  obtain ⟨h1, h2, h3, h4, h5, h6, h7, h8, h9, -⟩ := hk
  simp only [stripF]
  rw [sstepObjectValued_get _ _ _ _ _ h9, sstepProps_get _ _ _ _ _ h8,
    sstepProps_get _ _ _ _ _ h7, sstepObjectValued_get _ _ _ _ _ h6,
    sstepItems_get _ _ _ _ h5, sstepNot_get _ _ _ _ h4,
    sstepCombinator_get _ _ _ _ _ h3, sstepCombinator_get _ _ _ _ _ h2,
    sstepCombinator_get _ _ _ _ _ h1]

/-- A stripped well-shaped schema still has no truthy `$ref`. -/
theorem strip_ref_falsy (fuel : Nat) (v : J) (hg : goodF fuel v = true) :
    truthy ((stripF fuel v).get "$ref") = false := by
  cases fuel with
  | zero => simp [goodF] at hg
  | succ n =>
    cases v with
    | null => simp [goodF] at hg
    | bool b => simp [goodF] at hg
    | num x => simp [goodF] at hg
    | str s => simp [goodF] at hg
    | arr es => simp [goodF] at hg
    | obj fs =>
      unfold goodF at hg
      simp only [Bool.and_eq_true, Bool.not_eq_true'] at hg
      obtain ⟨⟨⟨⟨⟨⟨⟨⟨⟨⟨⟨⟨h1, -⟩, -⟩, -⟩, -⟩, -⟩, -⟩, -⟩, -⟩, -⟩, -⟩, -⟩, -⟩ := hg
      rw [stripF_succ_get n _ "$ref" (by decide)]
      rw [omitted_get_obj fs "$ref" (by decide) (by decide)]
      exact h1

/-- C7 (amended).  For a well-shaped object schema with no `$ref`, no truthy
`x-nullable` or `example`, and no `type:'file'` anywhere the converter
traverses, `convertSchema` succeeds (for either value of `copyDefinitions`)
and returns exactly the schema with the Swagger-only and extension keys
removed at every traversed node — nothing else added, removed or changed. -/
theorem C7_theorem (schema root swagger : J) (b : Bool) (hg : goodSchema schema = true) :
    convertSchema schema root swagger b = .ok (stripSchema schema) := by
  have hconv : convertSubSchema schema [] swagger = .ok (stripSchema schema, []) :=
    convert_eq_strip (J.size schema) schema [] swagger hg
  unfold convertSchema
  rw [hconv, exBind_ok]
  rw [if_neg (by simp)]
  rw [exBind_ok]
  have hr : truthy ((stripSchema schema).get "$ref") = false :=
    strip_ref_falsy (J.size schema) schema hg
  simp [hr]

/-- C7.  The claim as stated is false: a schema carrying (only) a truthy
`example` satisfies its hypotheses (no `$ref`, no `x-nullable`, no
`type:'file'`), yet conversion does not merely remove keys — it adds an
`examples` array, so the result is not the input minus removed keys. -/
theorem C7_counterexample :
    convertSchema (.obj [("example", .num 5)]) (.obj []) (.obj []) true =
      .ok (.obj [("examples", .arr [.num 5])]) ∧
    J.obj [("examples", .arr [.num 5])] ≠ .obj [] :=
  ⟨rfl, by decide⟩

/-- Witness for C7: a schema with Swagger-only and extension keys at two
levels converts to exactly the stripped schema. -/
theorem C7_theorem_witness :
    convertSchema (.obj [("type", .str "object"), ("discriminator", .str "d"),
      ("x-extra", .num 1),
      ("properties", .obj [("a", .obj [("type", .str "string"), ("readOnly", .bool true)])])])
      (.obj []) (.obj []) true =
      .ok (.obj [("type", .str "object"),
        ("properties", .obj [("a", .obj [("type", .str "string")])])]) :=
  C7_theorem (.obj [("type", .str "object"), ("discriminator", .str "d"),
      ("x-extra", .num 1),
      ("properties", .obj [("a", .obj [("type", .str "string"), ("readOnly", .bool true)])])])
    (.obj []) (.obj []) true rfl

/-! ### C3: no dangling references in the copied-definitions closure -/

theorem digitChar_mem (d : Nat) :
    digitChar d ∈ (['0', '1', '2', '3', '4', '5', '6', '7', '8', '9'] : List Char) := by
  unfold digitChar
  split <;> decide

theorem natKeyAux_digits (fuel n : Nat) :
    ∀ c ∈ natKeyAux fuel n, c ∈ (['0', '1', '2', '3', '4', '5', '6', '7', '8', '9'] : List Char) := by
  induction fuel generalizing n with
  | zero => intro c hc; simp [natKeyAux] at hc
  | succ m ih =>
    intro c hc
    unfold natKeyAux at hc
    split at hc
    · simp only [List.mem_singleton] at hc
      subst hc
      exact digitChar_mem n
    · rw [List.mem_append] at hc
      cases hc with
      | inl h => exact ih (n / 10) c h
      | inr h =>
        simp only [List.mem_singleton] at h
        subst h
        exact digitChar_mem (n % 10)

/-- An array index key never equals a key whose first character is not a
digit. -/
theorem natKey_ne (k : String) (c : Char)
    (hc : k.data.head? = some c)
    (hd : c ∉ (['0', '1', '2', '3', '4', '5', '6', '7', '8', '9'] : List Char)) :
    ∀ n : Nat, natKey n ≠ k := by
  intro n h
  have hdata : natKeyAux (n + 1) n = k.data := congrArg String.data h
  apply hd
  apply natKeyAux_digits (n + 1) n
  rw [hdata]
  cases hk : k.data with
  | nil => rw [hk] at hc; simp at hc
  | cons c0 rest =>
    rw [hk] at hc
    simp only [List.head?] at hc
    cases hc
    exact List.mem_cons_self _ _

theorem lookupField_natKey_pairs (ps : List (Nat × J)) (k : String)
    (hk : ∀ n : Nat, natKey n ≠ k) :
    lookupField (ps.map (fun p => (natKey p.1, p.2))) k = none := by
  induction ps with
  | nil => rfl
  | cons p ps ih => simp [lookupField, hk p.1, ih]

/-- For a key that survives the omit passes, is non-numeric, and is not an
array index, the omitted value reads the key exactly as the original. -/
theorem omitted_get_plain (v : J) (k : String)
    (h1 : swaggerOnlyKeys.contains k = false) (h2 : strStartsWith k "x-" = false)
    (h3 : strToNat? k = none) (h4 : ∀ n : Nat, natKey n ≠ k) :
    (omitExtensions (omitSwaggerKeys v)).get k = v.get k := by
  cases v with
  | obj fs => exact omitted_get_obj fs k h1 h2
  | arr es =>
    unfold omitExtensions omitSwaggerKeys
    simp only [J.toPairs, J.get]
    rw [lookupField_filter_none _ _ _ (lookupField_filter_none _ _ _
      (lookupField_natKey_pairs _ _ h4)), h3]
  | null =>
    unfold omitExtensions omitSwaggerKeys
    simp [J.toPairs, J.get, lookupField]
  | bool b =>
    unfold omitExtensions omitSwaggerKeys
    simp [J.toPairs, J.get, lookupField]
  | num x =>
    unfold omitExtensions omitSwaggerKeys
    simp [J.toPairs, J.get, lookupField]
  | str s =>
    unfold omitExtensions omitSwaggerKeys
    simp [J.toPairs, J.get, lookupField]

theorem exBind_ok_inv {α β : Type} (x : Except String α) (f : α → Except String β) (b : β)
    (h : exBind x f = .ok b) : ∃ a, x = .ok a ∧ f a = .ok b := by
  cases x with
  | error e => simp [exBind] at h
  | ok a => exact ⟨a, rfl, h⟩

theorem convertList_mono (conv : J → List J → Except String (J × List J))
    (hconv : ∀ e r n2 r2, conv e r = .ok (n2, r2) → ∀ x ∈ r, x ∈ r2) :
    ∀ (es refs : List J) (es2 refs2 : List J),
      convertList conv es refs = .ok (es2, refs2) → ∀ x ∈ refs, x ∈ refs2 := by
  intro es
  induction es with
  | nil =>
    intro refs es2 refs2 h x hx
    unfold convertList at h
    simp only [Except.ok.injEq, Prod.mk.injEq] at h
    rw [← h.2]
    exact hx
  | cons e es ih =>
    intro refs es2 refs2 h x hx
    unfold convertList at h
    obtain ⟨p, hp, h2⟩ := exBind_ok_inv _ _ _ h
    obtain ⟨q, hq, h3⟩ := exBind_ok_inv _ _ _ h2
    simp only [Except.ok.injEq, Prod.mk.injEq] at h3
    rw [← h3.2]
    exact ih p.2 q.1 q.2 (by rw [hq]) x (hconv e refs p.1 p.2 (by rw [hp]) x hx)

theorem convertFields_mono (conv : J → List J → Except String (J × List J))
    (hconv : ∀ e r n2 r2, conv e r = .ok (n2, r2) → ∀ x ∈ r, x ∈ r2) :
    ∀ (fs : List (String × J)) (refs : List J) (fs2 : List (String × J)) (refs2 : List J),
      convertFields conv fs refs = .ok (fs2, refs2) → ∀ x ∈ refs, x ∈ refs2 := by
  intro fs
  induction fs with
  | nil =>
    intro refs fs2 refs2 h x hx
    unfold convertFields at h
    simp only [Except.ok.injEq, Prod.mk.injEq] at h
    rw [← h.2]
    exact hx
  | cons kv fs ih =>
    intro refs fs2 refs2 h x hx
    cases kv with
    | mk k v =>
      unfold convertFields at h
      obtain ⟨p, hp, h2⟩ := exBind_ok_inv _ _ _ h
      obtain ⟨q, hq, h3⟩ := exBind_ok_inv _ _ _ h2
      simp only [Except.ok.injEq, Prod.mk.injEq] at h3
      rw [← h3.2]
      exact ih p.2 q.1 q.2 (by rw [hq]) x (hconv v refs p.1 p.2 (by rw [hp]) x hx)

theorem stepCombinator_mono (key : String) (conv : J → List J → Except String (J × List J))
    (schema : J) (st st2 : J × List J) (h : stepCombinator key conv schema st = .ok st2)
    (hconv : ∀ e r n2 r2, conv e r = .ok (n2, r2) → ∀ x ∈ r, x ∈ r2) :
    ∀ x ∈ st.2, x ∈ st2.2 := by
  unfold stepCombinator at h
  split at h
  · obtain ⟨q, hq, h2⟩ := exBind_ok_inv _ _ _ h
    simp only [Except.ok.injEq] at h2
    rw [← h2]
    exact fun x hx => convertList_mono conv hconv _ _ q.1 q.2 (by rw [hq]) x hx
  · cases h
    exact fun x hx => hx

theorem stepNot_mono (conv : J → List J → Except String (J × List J))
    (schema : J) (st st2 : J × List J) (h : stepNot conv schema st = .ok st2)
    (hconv : ∀ e r n2 r2, conv e r = .ok (n2, r2) → ∀ x ∈ r, x ∈ r2) :
    ∀ x ∈ st.2, x ∈ st2.2 := by
  unfold stepNot at h
  split at h
  · split at h
    · obtain ⟨p, hp, h2⟩ := exBind_ok_inv _ _ _ h
      simp only [Except.ok.injEq] at h2
      rw [← h2]
      exact fun x hx => hconv _ _ p.1 p.2 (by rw [hp]) x hx
    · cases h; exact fun x hx => hx
  · cases h; exact fun x hx => hx

theorem stepItems_mono (conv : J → List J → Except String (J × List J))
    (schema : J) (st st2 : J × List J) (h : stepItems conv schema st = .ok st2)
    (hconv : ∀ e r n2 r2, conv e r = .ok (n2, r2) → ∀ x ∈ r, x ∈ r2) :
    ∀ x ∈ st.2, x ∈ st2.2 := by
  unfold stepItems at h
  split at h
  · obtain ⟨q, hq, h2⟩ := exBind_ok_inv _ _ _ h
    simp only [Except.ok.injEq] at h2
    rw [← h2]
    exact fun x hx => convertList_mono conv hconv _ _ q.1 q.2 (by rw [hq]) x hx
  · split at h
    · obtain ⟨p, hp, h2⟩ := exBind_ok_inv _ _ _ h
      simp only [Except.ok.injEq] at h2
      rw [← h2]
      exact fun x hx => hconv _ _ p.1 p.2 (by rw [hp]) x hx
    · cases h; exact fun x hx => hx
  · cases h; exact fun x hx => hx

theorem stepObjectValued_mono (key : String) (conv : J → List J → Except String (J × List J))
    (schema : J) (st st2 : J × List J) (h : stepObjectValued key conv schema st = .ok st2)
    (hconv : ∀ e r n2 r2, conv e r = .ok (n2, r2) → ∀ x ∈ r, x ∈ r2) :
    ∀ x ∈ st.2, x ∈ st2.2 := by
  unfold stepObjectValued at h
  split at h
  · split at h
    · obtain ⟨p, hp, h2⟩ := exBind_ok_inv _ _ _ h
      simp only [Except.ok.injEq] at h2
      rw [← h2]
      exact fun x hx => hconv _ _ p.1 p.2 (by rw [hp]) x hx
    · cases h; exact fun x hx => hx
  · cases h; exact fun x hx => hx

theorem stepProps_mono (key : String) (conv : J → List J → Except String (J × List J))
    (schema : J) (st st2 : J × List J) (h : stepProps key conv schema st = .ok st2)
    (hconv : ∀ e r n2 r2, conv e r = .ok (n2, r2) → ∀ x ∈ r, x ∈ r2) :
    ∀ x ∈ st.2, x ∈ st2.2 := by
  unfold stepProps at h
  split at h
  · obtain ⟨q, hq, h2⟩ := exBind_ok_inv _ _ _ h
    simp only [Except.ok.injEq] at h2
    rw [← h2]
    exact fun x hx => convertFields_mono conv hconv _ _ q.1 q.2 (by rw [hq]) x hx
  · obtain ⟨q, hq, h2⟩ := exBind_ok_inv _ _ _ h
    simp only [Except.ok.injEq] at h2
    rw [← h2]
    exact fun x hx => convertList_mono conv hconv _ _ q.1 q.2 (by rw [hq]) x hx
  · cases h; exact fun x hx => hx

theorem convertChildren_mono (conv : J → List J → Except String (J × List J))
    (schema : J) (st st2 : J × List J) (h : convertChildren conv schema st = .ok st2)
    (hconv : ∀ e r n2 r2, conv e r = .ok (n2, r2) → ∀ x ∈ r, x ∈ r2) :
    ∀ x ∈ st.2, x ∈ st2.2 := by
  unfold convertChildren at h
  obtain ⟨s1, hs1, h⟩ := exBind_ok_inv _ _ _ h
  obtain ⟨s2, hs2, h⟩ := exBind_ok_inv _ _ _ h
  obtain ⟨s3, hs3, h⟩ := exBind_ok_inv _ _ _ h
  obtain ⟨s4, hs4, h⟩ := exBind_ok_inv _ _ _ h
  obtain ⟨s5, hs5, h⟩ := exBind_ok_inv _ _ _ h
  obtain ⟨s6, hs6, h⟩ := exBind_ok_inv _ _ _ h
  obtain ⟨s7, hs7, h⟩ := exBind_ok_inv _ _ _ h
  obtain ⟨s8, hs8, h⟩ := exBind_ok_inv _ _ _ h
  intro x hx
  exact stepObjectValued_mono _ _ _ _ _ h hconv x
    (stepProps_mono _ _ _ _ _ hs8 hconv x
      (stepProps_mono _ _ _ _ _ hs7 hconv x
        (stepObjectValued_mono _ _ _ _ _ hs6 hconv x
          (stepItems_mono _ _ _ _ hs5 hconv x
            (stepNot_mono _ _ _ _ hs4 hconv x
              (stepCombinator_mono _ _ _ _ _ hs3 hconv x
                (stepCombinator_mono _ _ _ _ _ hs2 hconv x
                  (stepCombinator_mono _ _ _ _ _ hs1 hconv x hx))))))))

/-- The reference accumulator only grows through conversion. -/
theorem convert_refs_mono : ∀ (fuel : Nat) (schema : J) (refs : List J) (sw node : J)
    (refs2 : List J), convertSubSchemaF fuel schema refs sw = .ok (node, refs2) →
    ∀ x ∈ refs, x ∈ refs2 := by
  intro fuel
  induction fuel with
  | zero => intro schema refs sw node refs2 h; simp [convertSubSchemaF] at h
  | succ n ih =>
    intro schema refs sw node refs2 h
    by_cases hr : truthy (schema.get "$ref") = true
    · simp only [convertSubSchemaF, hr, if_true, Except.ok.injEq, Prod.mk.injEq] at h
      rw [← h.2]
      intro x hx
      exact List.mem_append_left _ hx
    · rw [convertSubSchemaF_main n _ _ _ (by simpa using hr)] at h
      obtain ⟨a, ha, h2⟩ := exBind_ok_inv _ _ _ h
      intro x hx
      exact convertChildren_mono _ _ _ _ h2
        (fun e r n2 r2 hc => ih e r sw n2 r2 hc) x hx

theorem mem_concatMapJ (f : J → List J) (l : List J) (x : J) :
    x ∈ concatMapJ f l ↔ ∃ e ∈ l, x ∈ f e := by
  induction l with
  | nil => simp [concatMapJ]
  | cons e l ih => simp [concatMapJ, List.mem_append, ih]

theorem mem_concatMapFields (f : J → List J) (fs : List (String × J)) (x : J) :
    x ∈ concatMapFields f fs ↔ ∃ kv ∈ fs, x ∈ f kv.2 := by
  induction fs with
  | nil => simp [concatMapFields]
  | cons kv fs ih => simp [concatMapFields, List.mem_append, ih]

theorem set_obj (a : J) (k : String) (v : J) (h : ∃ gs, a = .obj gs) :
    ∃ gs, a.set k v = .obj gs := by
  obtain ⟨gs, rfl⟩ := h
  exact ⟨_, rfl⟩

theorem stepCombinator_obj (key : String) (conv : J → List J → Except String (J × List J))
    (schema : J) (st st2 : J × List J) (h : stepCombinator key conv schema st = .ok st2)
    (hobj : ∃ gs, st.1 = .obj gs) : ∃ gs, st2.1 = .obj gs := by
  unfold stepCombinator at h
  split at h
  · obtain ⟨q, hq, h2⟩ := exBind_ok_inv _ _ _ h
    simp only [Except.ok.injEq] at h2
    rw [← h2]
    exact set_obj _ _ _ hobj
  · cases h; exact hobj

theorem stepNot_obj (conv : J → List J → Except String (J × List J))
    (schema : J) (st st2 : J × List J) (h : stepNot conv schema st = .ok st2)
    (hobj : ∃ gs, st.1 = .obj gs) : ∃ gs, st2.1 = .obj gs := by
  unfold stepNot at h
  split at h
  · split at h
    · obtain ⟨p, hp, h2⟩ := exBind_ok_inv _ _ _ h
      simp only [Except.ok.injEq] at h2
      rw [← h2]
      exact set_obj _ _ _ hobj
    · cases h; exact hobj
  · cases h; exact hobj

theorem stepItems_obj (conv : J → List J → Except String (J × List J))
    (schema : J) (st st2 : J × List J) (h : stepItems conv schema st = .ok st2)
    (hobj : ∃ gs, st.1 = .obj gs) : ∃ gs, st2.1 = .obj gs := by
  unfold stepItems at h
  split at h
  · obtain ⟨q, hq, h2⟩ := exBind_ok_inv _ _ _ h
    simp only [Except.ok.injEq] at h2
    rw [← h2]
    exact set_obj _ _ _ hobj
  · split at h
    · obtain ⟨p, hp, h2⟩ := exBind_ok_inv _ _ _ h
      simp only [Except.ok.injEq] at h2
      rw [← h2]
      exact set_obj _ _ _ hobj
    · cases h; exact hobj
  · cases h; exact hobj

theorem stepObjectValued_obj (key : String) (conv : J → List J → Except String (J × List J))
    (schema : J) (st st2 : J × List J) (h : stepObjectValued key conv schema st = .ok st2)
    (hobj : ∃ gs, st.1 = .obj gs) : ∃ gs, st2.1 = .obj gs := by
  unfold stepObjectValued at h
  split at h
  · split at h
    · obtain ⟨p, hp, h2⟩ := exBind_ok_inv _ _ _ h
      simp only [Except.ok.injEq] at h2
      rw [← h2]
      exact set_obj _ _ _ hobj
    · cases h; exact hobj
  · cases h; exact hobj

theorem stepProps_obj (key : String) (conv : J → List J → Except String (J × List J))
    (schema : J) (st st2 : J × List J) (h : stepProps key conv schema st = .ok st2)
    (hobj : ∃ gs, st.1 = .obj gs) : ∃ gs, st2.1 = .obj gs := by
  unfold stepProps at h
  split at h
  · obtain ⟨q, hq, h2⟩ := exBind_ok_inv _ _ _ h
    simp only [Except.ok.injEq] at h2
    rw [← h2]
    exact set_obj _ _ _ hobj
  · obtain ⟨q, hq, h2⟩ := exBind_ok_inv _ _ _ h
    simp only [Except.ok.injEq] at h2
    rw [← h2]
    exact set_obj _ _ _ hobj
  · cases h; exact hobj

theorem nullableType_obj (a : J) (h : ∃ gs, a = .obj gs) : ∃ gs, nullableType a = .obj gs := by
  unfold nullableType
  split
  · exact set_obj _ _ _ h
  · split
    · exact set_obj _ _ _ h
    · exact h

theorem nullableEnum_obj (a : J) (h : ∃ gs, a = .obj gs) : ∃ gs, nullableEnum a = .obj gs := by
  unfold nullableEnum
  split
  · split
    · exact set_obj _ _ _ h
    · exact h
  · exact h

theorem nullableStep_obj (schema a : J) (h : ∃ gs, a = .obj gs) :
    ∃ gs, nullableStep schema a = .obj gs := by
  unfold nullableStep
  split
  · exact nullableEnum_obj _ (nullableType_obj _ h)
  · exact h

/-- Every converter output node is an object. -/
theorem convert_out_obj : ∀ (fuel : Nat) (schema : J) (refs : List J) (sw node : J)
    (refs2 : List J), convertSubSchemaF fuel schema refs sw = .ok (node, refs2) →
    ∃ gs, node = .obj gs := by
  intro fuel schema refs sw node refs2 h
  cases fuel with
  | zero => simp [convertSubSchemaF] at h
  | succ n =>
    by_cases hr : truthy (schema.get "$ref") = true
    · simp only [convertSubSchemaF, hr, if_true, Except.ok.injEq, Prod.mk.injEq] at h
      exact ⟨_, h.1.symm⟩
    · rw [convertSubSchemaF_main n _ _ _ (by simpa using hr)] at h
      obtain ⟨a, ha, h2⟩ := exBind_ok_inv _ _ _ h
      unfold convertChildren at h2
      obtain ⟨s1, hs1, h2⟩ := exBind_ok_inv _ _ _ h2
      obtain ⟨s2, hs2, h2⟩ := exBind_ok_inv _ _ _ h2
      obtain ⟨s3, hs3, h2⟩ := exBind_ok_inv _ _ _ h2
      obtain ⟨s4, hs4, h2⟩ := exBind_ok_inv _ _ _ h2
      obtain ⟨s5, hs5, h2⟩ := exBind_ok_inv _ _ _ h2
      obtain ⟨s6, hs6, h2⟩ := exBind_ok_inv _ _ _ h2
      obtain ⟨s7, hs7, h2⟩ := exBind_ok_inv _ _ _ h2
      obtain ⟨s8, hs8, h2⟩ := exBind_ok_inv _ _ _ h2
      have h0 : ∃ gs, (nullableStep schema a, refs).1 = .obj gs := by
        have hax : ∃ gs0, a = .obj gs0 := by
          unfold exampleStep at ha
          have hfobj : ∃ gs1, fileStep schema (omitExtensions (omitSwaggerKeys schema)) =
              .obj gs1 := by
            unfold fileStep
            split
            · exact ⟨_, rfl⟩
            · exact ⟨_, rfl⟩
          obtain ⟨gs1, hgs1⟩ := hfobj
          rw [hgs1] at ha
          split at ha
          · split at ha
            · obtain ⟨d, hd, ha2⟩ := exBind_ok_inv _ _ _ ha
              simp only [Except.ok.injEq] at ha2
              exact ⟨_, ha2.symm⟩
            · simp only [Except.ok.injEq] at ha
              exact ⟨_, ha.symm⟩
          · simp only [Except.ok.injEq] at ha
            exact ⟨_, ha.symm⟩
        exact nullableStep_obj schema a hax
      have ho1 := stepCombinator_obj _ _ _ _ _ hs1 h0
      have ho2 := stepCombinator_obj _ _ _ _ _ hs2 ho1
      have ho3 := stepCombinator_obj _ _ _ _ _ hs3 ho2
      have ho4 := stepNot_obj _ _ _ _ hs4 ho3
      have ho5 := stepItems_obj _ _ _ _ hs5 ho4
      have ho6 := stepObjectValued_obj _ _ _ _ _ hs6 ho5
      have ho7 := stepProps_obj _ _ _ _ _ hs7 ho6
      have ho8 := stepProps_obj _ _ _ _ _ hs8 ho7
      have ho9 := stepObjectValued_obj _ _ _ _ _ h2 ho8
      simpa using ho9

theorem convertList_scan (conv : J → List J → Except String (J × List J)) (F : J → List J)
    (hmono : ∀ e r n2 r2, conv e r = .ok (n2, r2) → ∀ x ∈ r, x ∈ r2)
    (hscan : ∀ e r n2 r2, conv e r = .ok (n2, r2) → ∀ x ∈ F n2, x ∈ r2) :
    ∀ (es refs es2 refs2 : List J), convertList conv es refs = .ok (es2, refs2) →
      ∀ e2 ∈ es2, ∀ x ∈ F e2, x ∈ refs2 := by
  intro es
  induction es with
  | nil =>
    intro refs es2 refs2 h e2 he2
    unfold convertList at h
    simp only [Except.ok.injEq, Prod.mk.injEq] at h
    rw [← h.1] at he2
    simp at he2
  | cons e es ih =>
    intro refs es2 refs2 h e2 he2 x hx
    unfold convertList at h
    obtain ⟨p, hp, h2⟩ := exBind_ok_inv _ _ _ h
    obtain ⟨q, hq, h3⟩ := exBind_ok_inv _ _ _ h2
    simp only [Except.ok.injEq, Prod.mk.injEq] at h3
    rw [← h3.1] at he2
    rw [← h3.2]
    rcases List.mem_cons.mp he2 with he2 | he2
    · subst he2
      exact convertList_mono conv hmono es p.2 q.1 q.2 (by rw [hq]) x
        (hscan e refs p.1 p.2 (by rw [hp]) x hx)
    · exact ih p.2 q.1 q.2 (by rw [hq]) e2 he2 x hx

theorem convertFields_scan (conv : J → List J → Except String (J × List J)) (F : J → List J)
    (hmono : ∀ e r n2 r2, conv e r = .ok (n2, r2) → ∀ x ∈ r, x ∈ r2)
    (hscan : ∀ e r n2 r2, conv e r = .ok (n2, r2) → ∀ x ∈ F n2, x ∈ r2) :
    ∀ (fs : List (String × J)) (refs : List J) (fs2 : List (String × J)) (refs2 : List J),
      convertFields conv fs refs = .ok (fs2, refs2) →
      ∀ kv2 ∈ fs2, ∀ x ∈ F kv2.2, x ∈ refs2 := by
  intro fs
  induction fs with
  | nil =>
    intro refs fs2 refs2 h kv2 hkv2
    unfold convertFields at h
    simp only [Except.ok.injEq, Prod.mk.injEq] at h
    rw [← h.1] at hkv2
    simp at hkv2
  | cons kv fs ih =>
    intro refs fs2 refs2 h kv2 hkv2 x hx
    cases kv with
    | mk k v =>
      unfold convertFields at h
      obtain ⟨p, hp, h2⟩ := exBind_ok_inv _ _ _ h
      obtain ⟨q, hq, h3⟩ := exBind_ok_inv _ _ _ h2
      simp only [Except.ok.injEq, Prod.mk.injEq] at h3
      rw [← h3.1] at hkv2
      rw [← h3.2]
      rcases List.mem_cons.mp hkv2 with hkv2 | hkv2
      · subst hkv2
        exact convertFields_mono conv hmono fs p.2 q.1 q.2 (by rw [hq]) x
          (hscan v refs p.1 p.2 (by rw [hp]) x hx)
      · exact ih p.2 q.1 q.2 (by rw [hq]) kv2 hkv2 x hx

theorem stepCombinator_scan (key : String) (conv : J → List J → Except String (J × List J))
    (F : J → List J) (schema : J) (st st2 : J × List J)
    (h : stepCombinator key conv schema st = .ok st2)
    (hobj : ∃ gs, st.1 = .obj gs)
    (ha : (st.1).get key = schema.get key)
    (hmono : ∀ e r n2 r2, conv e r = .ok (n2, r2) → ∀ x ∈ r, x ∈ r2)
    (hscan : ∀ e r n2 r2, conv e r = .ok (n2, r2) → ∀ x ∈ F n2, x ∈ r2) :
    ∀ x ∈ findCombinator F ((st2.1).get key), x ∈ st2.2 := by
  unfold stepCombinator at h
  split at h
  · rename_i es heq
    obtain ⟨q, hq, h2⟩ := exBind_ok_inv _ _ _ h
    simp only [Except.ok.injEq] at h2
    subst h2
    obtain ⟨gs, hgs⟩ := hobj
    intro x hx
    rw [show ((st.1).set key (J.arr q.1), q.2).1 = (st.1).set key (J.arr q.1) from rfl,
      hgs, get_set_same] at hx
    simp only [findCombinator] at hx
    obtain ⟨e2, he2, hx⟩ := (mem_concatMapJ F q.1 x).mp hx
    exact convertList_scan conv F hmono hscan es st.2 q.1 q.2 (by rw [hq]) e2 he2 x hx
  · rename_i hne
    cases h
    intro x hx
    rw [ha] at hx
    cases hv : schema.get key with
    | none => rw [hv] at hx; simp [findCombinator] at hx
    | some v =>
      cases v with
      | arr es => exact absurd hv (by intro hc; exact hne es hc)
      | null => rw [hv] at hx; simp [findCombinator] at hx
      | bool b => rw [hv] at hx; simp [findCombinator] at hx
      | num m => rw [hv] at hx; simp [findCombinator] at hx
      | str s2 => rw [hv] at hx; simp [findCombinator] at hx
      | obj gs => rw [hv] at hx; simp [findCombinator] at hx

theorem stepNot_scan (conv : J → List J → Except String (J × List J))
    (F : J → List J) (schema : J) (st st2 : J × List J)
    (h : stepNot conv schema st = .ok st2)
    (hobj : ∃ gs, st.1 = .obj gs)
    (ha : (st.1).get "not" = schema.get "not")
    (houtobj : ∀ e r n2 r2, conv e r = .ok (n2, r2) → ∃ gs, n2 = .obj gs)
    (hscan : ∀ e r n2 r2, conv e r = .ok (n2, r2) → ∀ x ∈ F n2, x ∈ r2) :
    ∀ x ∈ findNot F ((st2.1).get "not"), x ∈ st2.2 := by
  unfold stepNot at h
  split at h
  · rename_i n heq
    split at h
    · rename_i htr
      obtain ⟨p, hp, h2⟩ := exBind_ok_inv _ _ _ h
      simp only [Except.ok.injEq] at h2
      subst h2
      obtain ⟨gs, hgs⟩ := hobj
      intro x hx
      rw [show ((st.1).set "not" p.1, p.2).1 = (st.1).set "not" p.1 from rfl,
        hgs, get_set_same] at hx
      obtain ⟨gs2, hgs2⟩ := houtobj n st.2 p.1 p.2 (by rw [hp])
      simp only [findNot, hgs2, truthyJ, if_true] at hx
      exact hscan n st.2 p.1 p.2 (by rw [hp]) x (by rw [hgs2]; exact hx)
    · rename_i htr
      cases h
      intro x hx
      rw [ha, heq] at hx
      simp only [findNot] at hx
      rw [if_neg htr] at hx
      simp at hx
  · rename_i heq
    cases h
    intro x hx
    rw [ha, heq] at hx
    simp [findNot] at hx

theorem stepItems_scan (conv : J → List J → Except String (J × List J))
    (F : J → List J) (schema : J) (st st2 : J × List J)
    (h : stepItems conv schema st = .ok st2)
    (hobj : ∃ gs, st.1 = .obj gs)
    (ha : (st.1).get "items" = schema.get "items")
    (hmono : ∀ e r n2 r2, conv e r = .ok (n2, r2) → ∀ x ∈ r, x ∈ r2)
    (houtobj : ∀ e r n2 r2, conv e r = .ok (n2, r2) → ∃ gs, n2 = .obj gs)
    (hscan : ∀ e r n2 r2, conv e r = .ok (n2, r2) → ∀ x ∈ F n2, x ∈ r2) :
    ∀ x ∈ findItems F ((st2.1).get "items"), x ∈ st2.2 := by
  unfold stepItems at h
  split at h
  · rename_i es heq
    obtain ⟨q, hq, h2⟩ := exBind_ok_inv _ _ _ h
    simp only [Except.ok.injEq] at h2
    subst h2
    obtain ⟨gs, hgs⟩ := hobj
    intro x hx
    rw [show ((st.1).set "items" (J.arr q.1), q.2).1 = (st.1).set "items" (J.arr q.1) from rfl,
      hgs, get_set_same] at hx
    simp only [findItems] at hx
    obtain ⟨e2, he2, hx⟩ := (mem_concatMapJ F q.1 x).mp hx
    exact convertList_scan conv F hmono hscan es st.2 q.1 q.2 (by rw [hq]) e2 he2 x hx
  · rename_i it heq hne
    split at h
    · rename_i htr
      obtain ⟨p, hp, h2⟩ := exBind_ok_inv _ _ _ h
      simp only [Except.ok.injEq] at h2
      subst h2
      obtain ⟨gs, hgs⟩ := hobj
      intro x hx
      rw [show ((st.1).set "items" p.1, p.2).1 = (st.1).set "items" p.1 from rfl,
        hgs, get_set_same] at hx
      obtain ⟨gs2, hgs2⟩ := houtobj it st.2 p.1 p.2 (by rw [hp])
      rw [hgs2] at hx
      simp only [findItems, truthyJ, if_true] at hx
      exact hscan it st.2 p.1 p.2 (by rw [hp]) x (by rw [hgs2]; exact hx)
    · rename_i htr
      cases h
      intro x hx
      rw [ha, hne] at hx
      cases hit : it with
      | arr es2 => exact absurd hit (fun hc => heq es2 hc)
      | null =>
        rw [hit] at hx
        simp [findItems, truthyJ] at hx
      | bool b =>
        rw [hit] at htr hx
        simp only [findItems] at hx
        rw [if_neg htr] at hx
        simp at hx
      | num m =>
        rw [hit] at htr hx
        simp only [findItems] at hx
        rw [if_neg htr] at hx
        simp at hx
      | str s2 =>
        rw [hit] at htr hx
        simp only [findItems] at hx
        rw [if_neg htr] at hx
        simp at hx
      | obj gs =>
        rw [hit] at htr hx
        simp only [findItems] at hx
        rw [if_neg htr] at hx
        simp at hx
  · rename_i heq
    cases h
    intro x hx
    rw [ha, heq] at hx
    simp [findItems] at hx

theorem stepObjectValued_scan (key : String) (conv : J → List J → Except String (J × List J))
    (F : J → List J) (schema : J) (st st2 : J × List J)
    (h : stepObjectValued key conv schema st = .ok st2)
    (hobj : ∃ gs, st.1 = .obj gs)
    (ha : (st.1).get key = schema.get key)
    (houtobj : ∀ e r n2 r2, conv e r = .ok (n2, r2) → ∃ gs, n2 = .obj gs)
    (hscan : ∀ e r n2 r2, conv e r = .ok (n2, r2) → ∀ x ∈ F n2, x ∈ r2) :
    ∀ x ∈ findObjectValued F ((st2.1).get key), x ∈ st2.2 := by
  unfold stepObjectValued at h
  split at h
  · rename_i v heq
    split at h
    · rename_i htr
      obtain ⟨p, hp, h2⟩ := exBind_ok_inv _ _ _ h
      simp only [Except.ok.injEq] at h2
      subst h2
      obtain ⟨gs, hgs⟩ := hobj
      intro x hx
      rw [show ((st.1).set key p.1, p.2).1 = (st.1).set key p.1 from rfl,
        hgs, get_set_same] at hx
      obtain ⟨gs2, hgs2⟩ := houtobj v st.2 p.1 p.2 (by rw [hp])
      rw [hgs2] at hx
      simp only [findObjectValued, truthyJ, isObjOrArr, Bool.and_self, if_true] at hx
      exact hscan v st.2 p.1 p.2 (by rw [hp]) x (by rw [hgs2]; exact hx)
    · rename_i htr
      cases h
      intro x hx
      rw [ha, heq] at hx
      simp only [findObjectValued] at hx
      rw [if_neg htr] at hx
      simp at hx
  · rename_i heq
    cases h
    intro x hx
    rw [ha, heq] at hx
    simp [findObjectValued] at hx

theorem stepProps_scan (key : String) (conv : J → List J → Except String (J × List J))
    (F : J → List J) (schema : J) (st st2 : J × List J)
    (h : stepProps key conv schema st = .ok st2)
    (hobj : ∃ gs, st.1 = .obj gs)
    (ha : (st.1).get key = schema.get key)
    (hmono : ∀ e r n2 r2, conv e r = .ok (n2, r2) → ∀ x ∈ r, x ∈ r2)
    (hscan : ∀ e r n2 r2, conv e r = .ok (n2, r2) → ∀ x ∈ F n2, x ∈ r2) :
    ∀ x ∈ findProps F ((st2.1).get key), x ∈ st2.2 := by
  unfold stepProps at h
  split at h
  · rename_i fs heq
    obtain ⟨q, hq, h2⟩ := exBind_ok_inv _ _ _ h
    simp only [Except.ok.injEq] at h2
    subst h2
    obtain ⟨gs, hgs⟩ := hobj
    intro x hx
    rw [show ((st.1).set key (J.obj q.1), q.2).1 = (st.1).set key (J.obj q.1) from rfl,
      hgs, get_set_same] at hx
    simp only [findProps] at hx
    obtain ⟨kv2, hkv2, hx⟩ := (mem_concatMapFields F q.1 x).mp hx
    exact convertFields_scan conv F hmono hscan fs st.2 q.1 q.2 (by rw [hq]) kv2 hkv2 x hx
  · rename_i es heq
    obtain ⟨q, hq, h2⟩ := exBind_ok_inv _ _ _ h
    simp only [Except.ok.injEq] at h2
    subst h2
    obtain ⟨gs, hgs⟩ := hobj
    intro x hx
    rw [show ((st.1).set key (J.arr q.1), q.2).1 = (st.1).set key (J.arr q.1) from rfl,
      hgs, get_set_same] at hx
    simp only [findProps] at hx
    obtain ⟨e2, he2, hx⟩ := (mem_concatMapJ F q.1 x).mp hx
    exact convertList_scan conv F hmono hscan es st.2 q.1 q.2 (by rw [hq]) e2 he2 x hx
  · rename_i heq1 heq2
    cases h
    intro x hx
    rw [ha] at hx
    cases hv : schema.get key with
    | none => rw [hv] at hx; simp [findProps] at hx
    | some v =>
      cases v with
      | obj fs => exact absurd hv (by intro hc; exact heq1 fs hc)
      | arr es => exact absurd hv (by intro hc; exact heq2 es hc)
      | null => rw [hv] at hx; simp [findProps] at hx
      | bool b => rw [hv] at hx; simp [findProps] at hx
      | num m => rw [hv] at hx; simp [findProps] at hx
      | str s2 => rw [hv] at hx; simp [findProps] at hx

theorem exampleStep_out_obj (schema a2 sw : J)
    (h : exampleStep schema (fileStep schema (omitExtensions (omitSwaggerKeys schema))) sw =
      .ok a2) : ∃ gs, a2 = .obj gs := by
  unfold exampleStep at h
  have hfobj : ∃ gs1, fileStep schema (omitExtensions (omitSwaggerKeys schema)) = .obj gs1 := by
    unfold fileStep
    split
    · exact ⟨_, rfl⟩
    · exact ⟨_, rfl⟩
  obtain ⟨gs1, hgs1⟩ := hfobj
  rw [hgs1] at h
  split at h
  · split at h
    · obtain ⟨d, hd, ha2⟩ := exBind_ok_inv _ _ _ h
      simp only [Except.ok.injEq] at ha2
      exact ⟨_, ha2.symm⟩
    · simp only [Except.ok.injEq] at h
      exact ⟨_, h.symm⟩
  · simp only [Except.ok.injEq] at h
    exact ⟨_, h.symm⟩

/-- Every reference occurring in a converted node, in the schema-traversal
positions `findReferences` visits, was pushed into the reference
accumulator during conversion. -/
theorem convert_scan : ∀ (m fuel : Nat) (schema : J) (refs : List J) (sw node : J)
    (refs2 : List J), convertSubSchemaF fuel schema refs sw = .ok (node, refs2) →
    ∀ x ∈ findReferencesF m node, x ∈ refs2 := by
  intro m
  induction m with
  | zero => intro fuel schema refs sw node refs2 h x hx; simp [findReferencesF] at hx
  | succ m ih =>
    intro fuel schema refs sw node refs2 h x hx
    cases fuel with
    | zero => simp [convertSubSchemaF] at h
    | succ n =>
      by_cases hr : truthy (schema.get "$ref") = true
      · simp only [convertSubSchemaF, hr, if_true, Except.ok.injEq, Prod.mk.injEq] at h
        rw [← h.1] at hx
        rw [← h.2]
        cases ho : schema.get "$ref" with
        | none => rw [ho] at hr; simp [truthy] at hr
        | some rv0 =>
          rw [ho] at hr hx
          simp only [truthy] at hr
          simp only [findReferencesF, J.get, lookupField, if_pos, Option.getD_some] at hx
          have hc : truthy (some rv0) = true := by simp [truthy, hr]
          rw [if_pos hc] at hx
          simp only [List.mem_singleton] at hx
          subst hx
          exact List.mem_append_right _ (List.mem_singleton_self _)
      · have hrf : truthy (schema.get "$ref") = false := by simpa using hr
        rw [convertSubSchemaF_main n _ _ _ hrf] at h
        obtain ⟨a, ha, hfull⟩ := exBind_ok_inv _ _ _ h
        have hpre : ∀ (k : String), k ≠ "type" → k ≠ "enum" → k ≠ "examples" →
            swaggerOnlyKeys.contains k = false → strStartsWith k "x-" = false →
            strToNat? k = none → (∀ nn : Nat, natKey nn ≠ k) →
            (nullableStep schema a).get k = schema.get k := by
          intro k hk1 hk2 hk3 hk4 hk5 hk6 hk7
          rw [nullableStep_get _ _ _ hk1 hk2, exampleStep_get _ _ _ _ ha _ hk3,
            fileStep_get _ _ _ hk1, omitted_get_plain _ _ hk4 hk5 hk6 hk7]
        have hobj0 : ∃ gs, (nullableStep schema a, refs).1 = .obj gs :=
          nullableStep_obj schema a (exampleStep_out_obj schema a sw ha)
        have hccget := convertChildren_get _ _ _ _ hfull
        unfold convertChildren at hfull
        obtain ⟨s1, hs1, h2⟩ := exBind_ok_inv _ _ _ hfull
        obtain ⟨s2, hs2, h2⟩ := exBind_ok_inv _ _ _ h2
        obtain ⟨s3, hs3, h2⟩ := exBind_ok_inv _ _ _ h2
        obtain ⟨s4, hs4, h2⟩ := exBind_ok_inv _ _ _ h2
        obtain ⟨s5, hs5, h2⟩ := exBind_ok_inv _ _ _ h2
        obtain ⟨s6, hs6, h2⟩ := exBind_ok_inv _ _ _ h2
        obtain ⟨s7, hs7, h2⟩ := exBind_ok_inv _ _ _ h2
        obtain ⟨s8, hs8, h9⟩ := exBind_ok_inv _ _ _ h2
        set conv := fun (s : J) (r : List J) => convertSubSchemaF n s r sw with hconvdef
        have hmono : ∀ e r n2 r2, conv e r = .ok (n2, r2) → ∀ z ∈ r, z ∈ r2 :=
          fun e r n2 r2 hc => convert_refs_mono n e r sw n2 r2 hc
        have houtobj : ∀ e r n2 r2, conv e r = .ok (n2, r2) → ∃ gs, n2 = .obj gs :=
          fun e r n2 r2 hc => convert_out_obj n e r sw n2 r2 hc
        have hscan : ∀ e r n2 r2, conv e r = .ok (n2, r2) →
            ∀ z ∈ findReferencesF m n2, z ∈ r2 :=
          fun e r n2 r2 hc => ih n e r sw n2 r2 hc
        have ho1 := stepCombinator_obj _ _ _ _ _ hs1 hobj0
        have ho2 := stepCombinator_obj _ _ _ _ _ hs2 ho1
        have ho3 := stepCombinator_obj _ _ _ _ _ hs3 ho2
        have ho4 := stepNot_obj _ _ _ _ hs4 ho3
        have ho5 := stepItems_obj _ _ _ _ hs5 ho4
        have ho6 := stepObjectValued_obj _ _ _ _ _ hs6 ho5
        have ho7 := stepProps_obj _ _ _ _ _ hs7 ho6
        have ho8 := stepProps_obj _ _ _ _ _ hs8 ho7
        have hm2 : ∀ z ∈ s2.2, z ∈ refs2 := by
          intro z hz
          exact stepObjectValued_mono _ _ _ _ _ h9 hmono z
            (stepProps_mono _ _ _ _ _ hs8 hmono z
              (stepProps_mono _ _ _ _ _ hs7 hmono z
                (stepObjectValued_mono _ _ _ _ _ hs6 hmono z
                  (stepItems_mono _ _ _ _ hs5 hmono z
                    (stepNot_mono _ _ _ _ hs4 hmono z
                      (stepCombinator_mono _ _ _ _ _ hs3 hmono z hz))))))
        have hm1 : ∀ z ∈ s1.2, z ∈ refs2 := fun z hz =>
          hm2 z (stepCombinator_mono _ _ _ _ _ hs2 hmono z hz)
        have hm3 : ∀ z ∈ s3.2, z ∈ refs2 := by
          intro z hz
          exact stepObjectValued_mono _ _ _ _ _ h9 hmono z
            (stepProps_mono _ _ _ _ _ hs8 hmono z
              (stepProps_mono _ _ _ _ _ hs7 hmono z
                (stepObjectValued_mono _ _ _ _ _ hs6 hmono z
                  (stepItems_mono _ _ _ _ hs5 hmono z
                    (stepNot_mono _ _ _ _ hs4 hmono z hz)))))
        have hm4 : ∀ z ∈ s4.2, z ∈ refs2 := by
          intro z hz
          exact stepObjectValued_mono _ _ _ _ _ h9 hmono z
            (stepProps_mono _ _ _ _ _ hs8 hmono z
              (stepProps_mono _ _ _ _ _ hs7 hmono z
                (stepObjectValued_mono _ _ _ _ _ hs6 hmono z
                  (stepItems_mono _ _ _ _ hs5 hmono z hz))))
        have hm5 : ∀ z ∈ s5.2, z ∈ refs2 := by
          intro z hz
          exact stepObjectValued_mono _ _ _ _ _ h9 hmono z
            (stepProps_mono _ _ _ _ _ hs8 hmono z
              (stepProps_mono _ _ _ _ _ hs7 hmono z
                (stepObjectValued_mono _ _ _ _ _ hs6 hmono z hz)))
        have hm6 : ∀ z ∈ s6.2, z ∈ refs2 := by
          intro z hz
          exact stepObjectValued_mono _ _ _ _ _ h9 hmono z
            (stepProps_mono _ _ _ _ _ hs8 hmono z
              (stepProps_mono _ _ _ _ _ hs7 hmono z hz))
        have hm7 : ∀ z ∈ s7.2, z ∈ refs2 := fun z hz =>
          stepObjectValued_mono _ _ _ _ _ h9 hmono z
            (stepProps_mono _ _ _ _ _ hs8 hmono z hz)
        have hm8 : ∀ z ∈ s8.2, z ∈ refs2 := fun z hz =>
          stepObjectValued_mono _ _ _ _ _ h9 hmono z hz
        -- the final state is (node, refs2)
        have hnode : ∀ (k : String), k ≠ "additionalProperties" →
            node.get k = (s8.1).get k := by
          intro k hk
          have := stepObjectValued_get _ _ _ _ _ h9 k hk
          simpa using this
        -- node carries no truthy $ref
        have hnref : truthy (node.get "$ref") = false := by
          have hg := hccget "$ref" (by decide)
          simp only at hg
          rw [hg, hpre "$ref" (by decide) (by decide) (by decide) (by decide) (by decide)
            (by decide) (natKey_ne "$ref" '$' rfl (by decide))]
          exact hrf
        rw [findReferencesF] at hx
        rw [if_neg (by rw [hnref]; simp)] at hx
        simp only [List.mem_append] at hx
        rcases hx with ((((((((hx | hx) | hx) | hx) | hx) | hx) | hx) | hx) | hx)
        · -- allOf
          have hval : ((nullableStep schema a, refs).1).get "allOf" = schema.get "allOf" :=
            hpre "allOf" (by decide) (by decide) (by decide) (by decide) (by decide)
              (by decide) (natKey_ne "allOf" 'a' rfl (by decide))
          have hkey : node.get "allOf" = (s1.1).get "allOf" := by
            rw [hnode "allOf" (by decide), stepProps_get _ _ _ _ _ hs8 _ (by decide),
              stepProps_get _ _ _ _ _ hs7 _ (by decide),
              stepObjectValued_get _ _ _ _ _ hs6 _ (by decide),
              stepItems_get _ _ _ _ hs5 _ (by decide),
              stepNot_get _ _ _ _ hs4 _ (by decide),
              stepCombinator_get _ _ _ _ _ hs3 _ (by decide),
              stepCombinator_get _ _ _ _ _ hs2 _ (by decide)]
          rw [hkey] at hx
          exact hm1 x (stepCombinator_scan "allOf" conv (findReferencesF m) schema _ _ hs1
            hobj0 hval hmono hscan x hx)
        · -- anyOf
          have hval : ((s1.1)).get "anyOf" = schema.get "anyOf" := by
            rw [stepCombinator_get _ _ _ _ _ hs1 _ (by decide)]
            exact hpre "anyOf" (by decide) (by decide) (by decide) (by decide) (by decide)
              (by decide) (natKey_ne "anyOf" 'a' rfl (by decide))
          have hkey : node.get "anyOf" = (s2.1).get "anyOf" := by
            rw [hnode "anyOf" (by decide), stepProps_get _ _ _ _ _ hs8 _ (by decide),
              stepProps_get _ _ _ _ _ hs7 _ (by decide),
              stepObjectValued_get _ _ _ _ _ hs6 _ (by decide),
              stepItems_get _ _ _ _ hs5 _ (by decide),
              stepNot_get _ _ _ _ hs4 _ (by decide),
              stepCombinator_get _ _ _ _ _ hs3 _ (by decide)]
          rw [hkey] at hx
          exact hm2 x (stepCombinator_scan "anyOf" conv (findReferencesF m) schema _ _ hs2
            ho1 hval hmono hscan x hx)
        · -- oneOf
          have hval : ((s2.1)).get "oneOf" = schema.get "oneOf" := by
            rw [stepCombinator_get _ _ _ _ _ hs2 _ (by decide),
              stepCombinator_get _ _ _ _ _ hs1 _ (by decide)]
            exact hpre "oneOf" (by decide) (by decide) (by decide) (by decide) (by decide)
              (by decide) (natKey_ne "oneOf" 'o' rfl (by decide))
          have hkey : node.get "oneOf" = (s3.1).get "oneOf" := by
            rw [hnode "oneOf" (by decide), stepProps_get _ _ _ _ _ hs8 _ (by decide),
              stepProps_get _ _ _ _ _ hs7 _ (by decide),
              stepObjectValued_get _ _ _ _ _ hs6 _ (by decide),
              stepItems_get _ _ _ _ hs5 _ (by decide),
              stepNot_get _ _ _ _ hs4 _ (by decide)]
          rw [hkey] at hx
          exact hm3 x (stepCombinator_scan "oneOf" conv (findReferencesF m) schema _ _ hs3
            ho2 hval hmono hscan x hx)
        · -- not
          have hval : ((s3.1)).get "not" = schema.get "not" := by
            rw [stepCombinator_get _ _ _ _ _ hs3 _ (by decide),
              stepCombinator_get _ _ _ _ _ hs2 _ (by decide),
              stepCombinator_get _ _ _ _ _ hs1 _ (by decide)]
            exact hpre "not" (by decide) (by decide) (by decide) (by decide) (by decide)
              (by decide) (natKey_ne "not" 'n' rfl (by decide))
          have hkey : node.get "not" = (s4.1).get "not" := by
            rw [hnode "not" (by decide), stepProps_get _ _ _ _ _ hs8 _ (by decide),
              stepProps_get _ _ _ _ _ hs7 _ (by decide),
              stepObjectValued_get _ _ _ _ _ hs6 _ (by decide),
              stepItems_get _ _ _ _ hs5 _ (by decide)]
          rw [hkey] at hx
          exact hm4 x (stepNot_scan conv (findReferencesF m) schema _ _ hs4
            ho3 hval houtobj hscan x hx)
        · -- items
          have hval : ((s4.1)).get "items" = schema.get "items" := by
            rw [stepNot_get _ _ _ _ hs4 _ (by decide),
              stepCombinator_get _ _ _ _ _ hs3 _ (by decide),
              stepCombinator_get _ _ _ _ _ hs2 _ (by decide),
              stepCombinator_get _ _ _ _ _ hs1 _ (by decide)]
            exact hpre "items" (by decide) (by decide) (by decide) (by decide) (by decide)
              (by decide) (natKey_ne "items" 'i' rfl (by decide))
          have hkey : node.get "items" = (s5.1).get "items" := by
            rw [hnode "items" (by decide), stepProps_get _ _ _ _ _ hs8 _ (by decide),
              stepProps_get _ _ _ _ _ hs7 _ (by decide),
              stepObjectValued_get _ _ _ _ _ hs6 _ (by decide)]
          rw [hkey] at hx
          exact hm5 x (stepItems_scan conv (findReferencesF m) schema _ _ hs5
            ho4 hval hmono houtobj hscan x hx)
        · -- additionalItems
          have hval : ((s5.1)).get "additionalItems" = schema.get "additionalItems" := by
            rw [stepItems_get _ _ _ _ hs5 _ (by decide),
              stepNot_get _ _ _ _ hs4 _ (by decide),
              stepCombinator_get _ _ _ _ _ hs3 _ (by decide),
              stepCombinator_get _ _ _ _ _ hs2 _ (by decide),
              stepCombinator_get _ _ _ _ _ hs1 _ (by decide)]
            exact hpre "additionalItems" (by decide) (by decide) (by decide) (by decide)
              (by decide) (by decide) (natKey_ne "additionalItems" 'a' rfl (by decide))
          have hkey : node.get "additionalItems" = (s6.1).get "additionalItems" := by
            rw [hnode "additionalItems" (by decide), stepProps_get _ _ _ _ _ hs8 _ (by decide),
              stepProps_get _ _ _ _ _ hs7 _ (by decide)]
          rw [hkey] at hx
          exact hm6 x (stepObjectValued_scan "additionalItems" conv (findReferencesF m)
            schema _ _ hs6 ho5 hval houtobj hscan x hx)
        · -- properties
          have hval : ((s6.1)).get "properties" = schema.get "properties" := by
            rw [stepObjectValued_get _ _ _ _ _ hs6 _ (by decide),
              stepItems_get _ _ _ _ hs5 _ (by decide),
              stepNot_get _ _ _ _ hs4 _ (by decide),
              stepCombinator_get _ _ _ _ _ hs3 _ (by decide),
              stepCombinator_get _ _ _ _ _ hs2 _ (by decide),
              stepCombinator_get _ _ _ _ _ hs1 _ (by decide)]
            exact hpre "properties" (by decide) (by decide) (by decide) (by decide)
              (by decide) (by decide) (natKey_ne "properties" 'p' rfl (by decide))
          have hkey : node.get "properties" = (s7.1).get "properties" := by
            rw [hnode "properties" (by decide), stepProps_get _ _ _ _ _ hs8 _ (by decide)]
          rw [hkey] at hx
          exact hm7 x (stepProps_scan "properties" conv (findReferencesF m) schema _ _ hs7
            ho6 hval hmono hscan x hx)
        · -- patternProperties
          have hval : ((s7.1)).get "patternProperties" = schema.get "patternProperties" := by
            rw [stepProps_get _ _ _ _ _ hs7 _ (by decide),
              stepObjectValued_get _ _ _ _ _ hs6 _ (by decide),
              stepItems_get _ _ _ _ hs5 _ (by decide),
              stepNot_get _ _ _ _ hs4 _ (by decide),
              stepCombinator_get _ _ _ _ _ hs3 _ (by decide),
              stepCombinator_get _ _ _ _ _ hs2 _ (by decide),
              stepCombinator_get _ _ _ _ _ hs1 _ (by decide)]
            exact hpre "patternProperties" (by decide) (by decide) (by decide) (by decide)
              (by decide) (by decide) (natKey_ne "patternProperties" 'p' rfl (by decide))
          have hkey : node.get "patternProperties" = (s8.1).get "patternProperties" := by
            rw [hnode "patternProperties" (by decide)]
          rw [hkey] at hx
          exact hm8 x (stepProps_scan "patternProperties" conv (findReferencesF m) schema
            _ _ hs8 ho7 hval hmono hscan x hx)
        · -- additionalProperties
          have hval : ((s8.1)).get "additionalProperties" =
              schema.get "additionalProperties" := by
            rw [stepProps_get _ _ _ _ _ hs8 _ (by decide),
              stepProps_get _ _ _ _ _ hs7 _ (by decide),
              stepObjectValued_get _ _ _ _ _ hs6 _ (by decide),
              stepItems_get _ _ _ _ hs5 _ (by decide),
              stepNot_get _ _ _ _ hs4 _ (by decide),
              stepCombinator_get _ _ _ _ _ hs3 _ (by decide),
              stepCombinator_get _ _ _ _ _ hs2 _ (by decide),
              stepCombinator_get _ _ _ _ _ hs1 _ (by decide)]
            exact hpre "additionalProperties" (by decide) (by decide) (by decide) (by decide)
              (by decide) (by decide) (natKey_ne "additionalProperties" 'a' rfl (by decide))
          exact stepObjectValued_scan "additionalProperties" conv (findReferencesF m)
            schema s8 (node, refs2) h9 ho8 hval houtobj hscan x hx

theorem popLast_eq_none : ∀ (l : List J), popLast l = none → l = [] := by
  intro l h
  match l with
  | [] => rfl
  | [x] => simp [popLast] at h
  | x :: y :: xs =>
    rw [popLast] at h
    cases hp : popLast (y :: xs) with
    | none => exact absurd (popLast_eq_none (y :: xs) hp) (by simp)
    | some pr => rw [hp] at h; simp at h

theorem popLast_spec : ∀ (l rest : List J) (last : J),
    popLast l = some (rest, last) → l = rest ++ [last] := by
  intro l
  match l with
  | [] => intro rest last h; simp [popLast] at h
  | [x] =>
    intro rest last h
    simp only [popLast, Option.some.injEq, Prod.mk.injEq] at h
    rw [← h.1, ← h.2]
    rfl
  | x :: y :: xs =>
    intro rest last h
    rw [popLast] at h
    cases hp : popLast (y :: xs) with
    | none => rw [hp] at h; simp at h
    | some pr =>
      obtain ⟨rest2, last2⟩ := pr
      rw [hp] at h
      simp only [Option.some.injEq, Prod.mk.injEq] at h
      have := popLast_spec (y :: xs) rest2 last2 hp
      rw [← h.1, ← h.2]
      simp [this]

/-- A successful `lookupReference` returns as id the third segment of the
split reference, which is exactly the key `refKey` computes. -/
theorem lookup_refKey (r root : J) (d : Option Nat) (lk : LookupResult)
    (h : lookupReference r root d = .ok lk) : keyOfId lk.id = refKey r := by
  cases r with
  | str s =>
    rw [lookupReference] at h
    split at h
    · simp at h
    · rename_i p0 rest heq0
      split at h
      · simp at h
      · split at h
        · simp at h
        · rename_i p1 rest2 heq1
          split at h
          · simp at h
          · split at h
            · simp at h
            · rename_i v hv
              simp only [Except.ok.injEq] at h
              rw [← h]
              simp [refKey, heq0]
  | null => simp [lookupReference] at h
  | bool b => simp [lookupReference] at h
  | num n => simp [lookupReference] at h
  | arr es => simp [lookupReference] at h
  | obj fs => simp [lookupReference] at h

/-- Drain-loop closure: after a successful worklist drain, every reference
that was on the worklist, and every reference `findReferences` sees inside a
copied definition, has its id bound in the final definitions map. -/
theorem resolveRefs_closed : ∀ (fuel : Nat) (refs : List J) (defs0 : List (String × J))
    (root : J) (defs : List (String × J)),
    resolveRefsF fuel refs defs0 root = .ok defs →
    (∀ r ∈ refs, ∃ v, lookupField defs (refKey r) = some v) ∧
    (∀ p ∈ defs, p ∈ defs0 ∨
      ∀ r ∈ findReferences p.2, ∃ v, lookupField defs (refKey r) = some v) := by
  intro fuel
  induction fuel with
  | zero => intro refs defs0 root defs h; simp [resolveRefsF] at h
  | succ n ih =>
    intro refs defs0 root defs h
    cases hp : popLast refs with
    | none =>
      rw [resolveRefsF_succ_none n refs defs0 root hp] at h
      simp only [Except.ok.injEq] at h
      subst h
      refine ⟨?_, fun p hp2 => Or.inl hp2⟩
      intro r hr
      rw [popLast_eq_none refs hp] at hr
      simp at hr
    | some pr =>
      obtain ⟨rest, r⟩ := pr
      rw [resolveRefsF_succ_some n refs defs0 root rest r hp] at h
      cases hl : lookupReference r root (some 3) with
      | error e => rw [hl] at h; simp [exBind] at h
      | ok lk =>
        rw [hl] at h
        rw [exBind_ok] at h
        have hkey := lookup_refKey r root (some 3) lk hl
        have hmem : ∀ x ∈ refs, x ∈ rest ∨ x = r := by
          intro x hx
          rw [popLast_spec refs rest r hp] at hx
          simpa using hx
        split at h
        · -- fresh id: the definition is copied and its references enqueued
          rename_i hnone
          obtain ⟨iha, ihb⟩ := ih _ _ _ _ h
          have hrk : ∃ v, lookupField defs (refKey r) = some v := by
            refine ⟨lk.referenced, ?_⟩
            rw [← hkey]
            exact resolveRefs_mono n _ _ root defs _ _
              (lookupField_append_right_fresh defs0 _ _ hnone) h
          refine ⟨?_, ?_⟩
          · intro x hx
            rcases hmem x hx with hx2 | hx2
            · exact iha x (List.mem_append_left _ hx2)
            · rw [hx2]; exact hrk
          · intro p hp2
            rcases ihb p hp2 with hp3 | hp3
            · rcases List.mem_append.mp hp3 with hp4 | hp4
              · exact Or.inl hp4
              · refine Or.inr ?_
                simp only [List.mem_singleton] at hp4
                subst hp4
                intro r2 hr2
                exact iha r2 (List.mem_append_right _ hr2)
            · exact Or.inr hp3
        · -- id already bound: first write wins, nothing to do
          rename_i hsome
          obtain ⟨iha, ihb⟩ := ih _ _ _ _ h
          refine ⟨?_, ihb⟩
          intro x hx
          rcases hmem x hx with hx2 | hx2
          · exact iha x hx2
          · rw [hx2, ← hkey]
            cases hv : lookupField defs0 (keyOfId lk.id) with
            | none => exact absurd hv hsome
            | some v => exact ⟨v, resolveRefs_mono n _ _ root defs _ _ hv h⟩

/-- C3.  Closure of the copied definitions, corrected to the traversal
`findReferences` actually performs: after a successful conversion with
`copyDefinitions = true` whose worklist drain succeeds, every reference
`findReferences` sees in the converted node, and every reference it sees
inside a copied definition, has its definition id bound in the copied
definitions map; and when the converted node is not a bare `$ref`,
`convertSchema` returns exactly that node with the copied map stored under
`definitions`.  References stored under keys `findReferences` does not
traverse are not covered and may dangle. -/
theorem C3_theorem :
    ∀ (schema swagger root node : J) (refs : List J) (defs : List (String × J)),
      convertSubSchema schema [] swagger = .ok (node, refs) →
      resolveRefsF (resolveBound refs root) refs [] root = .ok defs →
      (∀ r ∈ findReferences node, lookupField defs (refKey r) ≠ none) ∧
      (∀ p ∈ defs, ∀ r ∈ findReferences p.2, lookupField defs (refKey r) ≠ none) ∧
      (truthy (node.get "$ref") = false → refs.length ≠ 0 →
        convertSchema schema root swagger true = .ok (node.set "definitions" (.obj defs))) := by
  intro schema swagger root node refs defs hconv hres
  obtain ⟨ha, hb⟩ := resolveRefs_closed (resolveBound refs root) refs [] root defs hres
  refine ⟨?_, ?_, ?_⟩
  · intro r hr
    have hr2 : r ∈ refs :=
      convert_scan (J.size node) (J.size schema) schema [] swagger node refs hconv r hr
    obtain ⟨v, hv⟩ := ha r hr2
    simp [hv]
  · intro p hp r hr
    rcases hb p hp with h0 | hcl
    · simp at h0
    · obtain ⟨v, hv⟩ := hcl r hr
      simp [hv]
  · intro hnr hlen
    unfold convertSchema
    rw [hconv, exBind_ok]
    have hcond : (true && refs.length != 0) = true := by
      simp [hlen]
    rw [if_pos hcond, hres, exBind_ok, exBind_ok]
    have hget : (node.set "definitions" (.obj defs)).get "$ref" = node.get "$ref" :=
      get_set_ne node "definitions" "$ref" (.obj defs) (by decide)
    rw [hget, hnr]
    simp

theorem C3_theorem_witness :
    (∀ r ∈ findReferences (J.obj [("allOf",
        J.arr [J.obj [("$ref", J.str "#/definitions/A")]])]),
      lookupField [("A", J.obj [("type", J.str "string")])] (refKey r) ≠ none) ∧
    (∀ p ∈ [("A", J.obj [("type", J.str "string")])],
      ∀ r ∈ findReferences p.2,
        lookupField [("A", J.obj [("type", J.str "string")])] (refKey r) ≠ none) ∧
    (truthy ((J.obj [("allOf",
          J.arr [J.obj [("$ref", J.str "#/definitions/A")]])]).get "$ref") = false →
      ([J.str "#/definitions/A"] : List J).length ≠ 0 →
      convertSchema (J.obj [("allOf", J.arr [J.obj [("$ref", J.str "#/definitions/A")]])])
          (J.obj [("definitions", J.obj [("A", J.obj [("type", J.str "string")])])])
          (J.obj []) true =
        .ok ((J.obj [("allOf",
            J.arr [J.obj [("$ref", J.str "#/definitions/A")]])]).set "definitions"
          (.obj [("A", J.obj [("type", J.str "string")])]))) :=
  C3_theorem (J.obj [("allOf", J.arr [J.obj [("$ref", J.str "#/definitions/A")]])])
    (J.obj [])
    (J.obj [("definitions", J.obj [("A", J.obj [("type", J.str "string")])])])
    (J.obj [("allOf", J.arr [J.obj [("$ref", J.str "#/definitions/A")]])])
    [J.str "#/definitions/A"]
    [("A", J.obj [("type", J.str "string")])]
    rfl rfl

/-- C3, refuting the unrestricted claim: the copied definition `A` still
contains a reference to `B` under the key `foo` (visible to
`checkSchemaHasReferences`, hence the `allOf` wrapper output), but
`findReferences` does not traverse `foo`, so `B` is never copied and the
returned result carries a dangling `$ref` to `#/definitions/B`. -/
theorem C3_counterexample :
    convertSchema (J.obj [("$ref", J.str "#/definitions/A")])
        (J.obj [("definitions", J.obj
          [("A", J.obj [("foo", J.obj [("$ref", J.str "#/definitions/B")])]),
           ("B", J.obj [("type", J.str "string")])])])
        (J.obj []) true =
      .ok (J.obj [("allOf", J.arr [J.obj [("$ref", J.str "#/definitions/A")]]),
        ("definitions", J.obj
          [("A", J.obj [("foo", J.obj [("$ref", J.str "#/definitions/B")])])])]) ∧
    (J.obj [("A", J.obj [("foo", J.obj [("$ref", J.str "#/definitions/B")])])]).get "B" =
      none ∧
    checkSchemaHasReferences
      (J.obj [("foo", J.obj [("$ref", J.str "#/definitions/B")])]) = true ∧
    findReferences (J.obj [("foo", J.obj [("$ref", J.str "#/definitions/B")])]) = [] :=
  ⟨rfl, rfl, rfl, rfl⟩

theorem size_pos : ∀ (v : J), 0 < J.size v := by
  intro v
  cases v <;> simp [J.size]

theorem sizeList_mem (es : List J) (v : J) (h : v ∈ es) : J.size v ≤ J.sizeList es := by
  induction es with
  | nil => simp at h
  | cons e es ih =>
    rcases List.mem_cons.mp h with h1 | h1
    · subst h1; simp [J.sizeList]
    · have := ih h1
      simp [J.sizeList]
      omega

theorem sizeFields_mem (fs : List (String × J)) (kv : String × J) (h : kv ∈ fs) :
    J.size kv.2 ≤ J.sizeFields fs := by
  induction fs with
  | nil => simp at h
  | cons p fs ih =>
    rcases List.mem_cons.mp h with h1 | h1
    · subst h1
      obtain ⟨k, v⟩ := kv
      simp [J.sizeFields]
    · have := ih h1
      obtain ⟨k, v⟩ := p
      simp [J.sizeFields]
      omega

theorem lookupField_size (fs : List (String × J)) (k : String) (w : J)
    (h : lookupField fs k = some w) : J.size w ≤ J.sizeFields fs :=
  sizeFields_mem fs (k, w) (lookupField_mem fs k w h)

theorem get_size_lt (v w : J) (k : String) (h : v.get k = some w) : J.size w < J.size v := by
  cases v with
  | obj fs =>
    have := lookupField_size fs k w h
    simp [J.size]
    omega
  | arr es =>
    simp only [J.get] at h
    cases hi : strToNat? k with
    | none => rw [hi] at h; simp at h
    | some i =>
      rw [hi] at h
      have hm : w ∈ es := List.get?_mem h
      have := sizeList_mem es w hm
      simp [J.size]
      omega
  | null => simp [J.get] at h
  | bool b => simp [J.get] at h
  | num n => simp [J.get] at h
  | str s => simp [J.get] at h

theorem concatMapS_congr (f g : J → List String) (es : List J)
    (h : ∀ e ∈ es, f e = g e) : concatMapS f es = concatMapS g es := by
  induction es with
  | nil => rfl
  | cons e es ih =>
    simp only [concatMapS]
    rw [h e (List.mem_cons_self _ _), ih (fun x hx => h x (List.mem_cons_of_mem _ hx))]

theorem concatMapFieldsS_congr (f g : J → List String) (fs : List (String × J))
    (h : ∀ kv ∈ fs, f kv.2 = g kv.2) : concatMapFieldsS f fs = concatMapFieldsS g fs := by
  induction fs with
  | nil => rfl
  | cons kv fs ih =>
    simp only [concatMapFieldsS]
    rw [h kv (List.mem_cons_self _ _), ih (fun x hx => h x (List.mem_cons_of_mem _ hx))]

theorem refsInF_congr : ∀ n : Nat, ∀ (m : Nat) (v : J), J.size v ≤ n → J.size v ≤ m →
    refsInF n v = refsInF m v := by
  intro n
  induction n with
  | zero =>
    intro m v hn hm
    have := size_pos v
    omega
  | succ n ih =>
    intro m v hn hm
    have hvp := size_pos v
    cases m with
    | zero => omega
    | succ m =>
      cases v with
      | obj fs =>
        simp only [refsInF]
        congr 1
        apply concatMapFieldsS_congr
        intro kv hkv
        have h1 : J.size kv.2 ≤ J.sizeFields fs := sizeFields_mem fs kv hkv
        have h2 : J.size (J.obj fs) = 1 + J.sizeFields fs := rfl
        exact ih m kv.2 (by omega) (by omega)
      | arr es =>
        simp only [refsInF]
        apply concatMapS_congr
        intro e he
        have h1 : J.size e ≤ J.sizeList es := sizeList_mem es e he
        have h2 : J.size (J.arr es) = 1 + J.sizeList es := rfl
        exact ih m e (by omega) (by omega)
      | null => simp [refsInF]
      | bool b => simp [refsInF]
      | num n2 => simp [refsInF]
      | str s => simp [refsInF]

theorem refsInF_stable (fuel : Nat) (v : J) (h : J.size v ≤ fuel) :
    refsInF fuel v = refsIn v :=
  refsInF_congr fuel (J.size v) v h (Nat.le_refl _)

theorem data_append (a b : String) : (a ++ b).data = a.data ++ b.data := rfl

theorem listIsPre_refl : ∀ (l : List Char), listIsPre l l = true := by
  intro l
  induction l with
  | nil => rfl
  | cons c cs ih => simp [listIsPre, ih]

theorem listIsPre_append_right (pre l l2 : List Char) (h : listIsPre pre l = true) :
    listIsPre pre (l ++ l2) = true := by
  induction pre generalizing l with
  | nil => rfl
  | cons c cs ih =>
    cases l with
    | nil => simp [listIsPre] at h
    | cons d ds =>
      simp only [listIsPre, Bool.and_eq_true] at h
      simp only [List.cons_append, listIsPre, Bool.and_eq_true]
      exact ⟨h.1, ih ds h.2⟩

theorem strStartsWith_refl (s : String) : strStartsWith s s = true :=
  listIsPre_refl s.data

theorem strStartsWith_append (a b x : String) (h : strStartsWith a x = true) :
    strStartsWith (a ++ b) x = true := by
  unfold strStartsWith at h ⊢
  rw [data_append]
  exact listIsPre_append_right x.data a.data b.data h

theorem splitSlash_ne_nil : ∀ (l : List Char), splitSlash l ≠ [] := by
  intro l
  cases l with
  | nil => simp [splitSlash]
  | cons c cs =>
    simp only [splitSlash]
    split
    · simp
    · cases hs : splitSlash cs with
      | nil => simp
      | cons g gs => simp

theorem joinSlash_splitSlash_data : ∀ (l : List Char),
    (joinSlash ((splitSlash l).map String.mk)).data = l := by
  intro l
  induction l with
  | nil => rfl
  | cons c cs ih =>
    by_cases hc : c = '/'
    · subst hc
      simp only [splitSlash, if_pos rfl]
      cases hs : splitSlash cs with
      | nil => exact absurd hs (splitSlash_ne_nil cs)
      | cons g gs =>
        rw [hs] at ih
        simp only [List.map_cons] at ih ⊢
        show ((String.mk [] ++ "/") ++ joinSlash (String.mk g :: gs.map String.mk)).data =
          '/' :: cs
        rw [data_append, ← ih]
        rfl
    · simp only [splitSlash, if_neg hc]
      cases hs : splitSlash cs with
      | nil => exact absurd hs (splitSlash_ne_nil cs)
      | cons g gs =>
        rw [hs] at ih
        simp only [List.map_cons] at ih ⊢
        cases gs with
        | nil =>
          simp only [List.map_nil, joinSlash] at ih ⊢
          show c :: g = c :: cs
          rw [ih]
        | cons g2 rest =>
          simp only [List.map_cons, joinSlash] at ih ⊢
          show ((String.mk (c :: g) ++ "/") ++
            joinSlash (String.mk g2 :: rest.map String.mk)).data = c :: cs
          rw [data_append, ← ih, data_append]
          rfl

theorem joinSlash_refSplit (s : String) : joinSlash (refSplit s) = s := by
  unfold refSplit
  cases s with
  | mk data =>
    have h := joinSlash_splitSlash_data data
    cases hj : joinSlash ((splitSlash data).map String.mk) with
    | mk d2 =>
      rw [hj] at h
      simp at h
      rw [h]

theorem joinSlash_append_single : ∀ (p : List String) (k : String), p ≠ [] →
    joinSlash (p ++ [k]) = joinSlash p ++ "/" ++ k := by
  intro p
  induction p with
  | nil => intro k h; simp at h
  | cons a rest ih =>
    intro k h
    cases rest with
    | nil => rfl
    | cons b rest2 =>
      show joinSlash (a :: ((b :: rest2) ++ [k])) = (a ++ "/" ++ joinSlash (b :: rest2)) ++ "/" ++ k
      have h2 : joinSlash (a :: ((b :: rest2) ++ [k])) =
          a ++ "/" ++ joinSlash ((b :: rest2) ++ [k]) := rfl
      rw [h2, ih k (by simp)]
      simp [String.append_assoc]

theorem mem_concatMapS_of (f : J → List String) (es : List J) (e : J) (x : String)
    (he : e ∈ es) (hx : x ∈ f e) : x ∈ concatMapS f es := by
  induction es with
  | nil => simp at he
  | cons a as ih =>
    rcases List.mem_cons.mp he with h1 | h1
    · subst h1
      exact List.mem_append_left _ hx
    · exact List.mem_append_right _ (ih h1)

theorem mem_concatMapFieldsS_of (f : J → List String) (fs : List (String × J))
    (kv : String × J) (x : String) (he : kv ∈ fs) (hx : x ∈ f kv.2) :
    x ∈ concatMapFieldsS f fs := by
  induction fs with
  | nil => simp at he
  | cons a as ih =>
    rcases List.mem_cons.mp he with h1 | h1
    · subst h1
      exact List.mem_append_left _ hx
    · exact List.mem_append_right _ (ih h1)

theorem refsIn_field (fs : List (String × J)) (kv : String × J) (x : String)
    (he : kv ∈ fs) (hx : x ∈ refsIn kv.2) : x ∈ refsIn (J.obj fs) := by
  have hsz : J.size (J.obj fs) = J.sizeFields fs + 1 := by simp [J.size]; omega
  unfold refsIn
  rw [hsz]
  simp only [refsInF]
  refine List.mem_append_right _ ?_
  refine mem_concatMapFieldsS_of _ fs kv x he ?_
  rw [refsInF_stable _ _ (sizeFields_mem fs kv he)]
  exact hx

theorem refsIn_elem (es : List J) (e : J) (x : String)
    (he : e ∈ es) (hx : x ∈ refsIn e) : x ∈ refsIn (J.arr es) := by
  have hsz : J.size (J.arr es) = J.sizeList es + 1 := by simp [J.size]; omega
  unfold refsIn
  rw [hsz]
  simp only [refsInF]
  refine mem_concatMapS_of _ es e x he ?_
  rw [refsInF_stable _ _ (sizeList_mem es e he)]
  exact hx

theorem refsIn_get (v w : J) (k : String) (h : v.get k = some w) (x : String)
    (hx : x ∈ refsIn w) : x ∈ refsIn v := by
  cases v with
  | obj fs => exact refsIn_field fs (k, w) x (lookupField_mem fs k w h) hx
  | arr es =>
    simp only [J.get] at h
    cases hi : strToNat? k with
    | none => rw [hi] at h; simp at h
    | some i =>
      rw [hi] at h
      exact refsIn_elem es w x (List.get?_mem h) hx
  | null => simp [J.get] at h
  | bool b => simp [J.get] at h
  | num n => simp [J.get] at h
  | str s => simp [J.get] at h

theorem walkDefs_none : ∀ (keys : List String) (cd : Nat) (d : Option Nat),
    walkDefs none keys cd d = none := by
  intro keys cd d
  cases keys <;> rfl

theorem walkDefs_sub : ∀ (keys : List String) (v w : J) (cd : Nat) (d : Option Nat),
    walkDefs (some v) keys cd d = some w →
    (∀ x ∈ refsIn w, x ∈ refsIn v) ∧ J.size w ≤ J.size v := by
  intro keys
  induction keys with
  | nil =>
    intro v w cd d h
    simp only [walkDefs, Option.some.injEq] at h
    subst h
    exact ⟨fun x hx => hx, Nat.le_refl _⟩
  | cons k ks ih =>
    intro v w cd d h
    simp only [walkDefs] at h
    cases hv2 : v.get k with
    | none =>
      rw [hv2] at h
      split at h
      · simp at h
      · rw [walkDefs_none] at h; simp at h
    | some v2 =>
      rw [hv2] at h
      have hrefs := refsIn_get v v2 k hv2
      have hsz := get_size_lt v v2 k hv2
      split at h
      · simp only [Option.some.injEq] at h
        subst h
        exact ⟨hrefs, Nat.le_of_lt hsz⟩
      · obtain ⟨h1, h2⟩ := ih v2 w (cd + 1) d h
        exact ⟨fun x hx => hrefs x (h1 x hx), Nat.le_trans h2 (Nat.le_of_lt hsz)⟩

theorem lookup_sub (r : String) (root : J) (d : Option Nat) (lk : LookupResult)
    (h : lookupReference (.str r) root d = .ok lk) :
    (∀ x ∈ refsIn lk.referenced, x ∈ refsIn root) ∧ J.size lk.referenced ≤ J.size root := by
  rw [lookupReference] at h
  split at h
  · simp at h
  · split at h
    · simp at h
    · split at h
      · simp at h
      · split at h
        · simp at h
        · split at h
          · simp at h
          · rename_i v hv
            simp only [Except.ok.injEq] at h
            cases hd : root.get "definitions" with
            | none => rw [hd, walkDefs_none] at hv; simp at hv
            | some defsv =>
              rw [hd] at hv
              obtain ⟨h1, h2⟩ := walkDefs_sub _ defsv v 2 d hv
              have hrefs := refsIn_get root defsv "definitions" hd
              have hsz := get_size_lt root defsv "definitions" hd
              rw [← h]
              refine ⟨fun x hx => hrefs x (h1 x hx), ?_⟩
              show J.size v ≤ J.size root
              omega

theorem listIsPre_nil (pre : List Char) (h : listIsPre pre [] = true) : pre = [] := by
  cases pre with
  | nil => rfl
  | cons c cs => simp [listIsPre] at h

theorem strStartsWith_any (k x : String) (h : strStartsWith "" x = true) :
    strStartsWith k x = true := by
  unfold strStartsWith at h ⊢
  have : x.data = [] := listIsPre_nil x.data h
  rw [this]
  rfl

/-- A reference allowed against a path extended by one key was allowed
against the original path: the object traversal only adds prefixes. -/
theorem refAllowed_extend (paths path : Option (List String)) (k x : String)
    (h : refAllowed paths (some ((path.getD []) ++ [k])) x = true) :
    refAllowed paths path x = true := by
  cases path with
  | none => rfl
  | some p =>
    simp only [refAllowed, Option.getD_some, Bool.not_eq_true'] at h ⊢
    simp only [pathHasCircularReference, Bool.or_eq_false_iff] at h ⊢
    refine ⟨?_, h.2⟩
    by_cases hA : strStartsWith (joinSlash p) x = true
    · exfalso
      cases hp : p with
      | nil =>
        subst hp
        have hA2 : strStartsWith "" x = true := hA
        have h3 := strStartsWith_any (joinSlash ([] ++ [k])) x hA2
        rw [h.1] at h3
        simp at h3
      | cons a rest =>
        have hj : joinSlash (p ++ [k]) = joinSlash p ++ "/" ++ k :=
          joinSlash_append_single p k (by rw [hp]; simp)
        rw [hj] at h
        have h2 : strStartsWith (joinSlash p ++ "/") x = true :=
          strStartsWith_append (joinSlash p) "/" x hA
        have h3 : strStartsWith ((joinSlash p ++ "/") ++ k) x = true :=
          strStartsWith_append (joinSlash p ++ "/") k x h2
        rw [h.1] at h3
        simp at h3
    · simpa using hA

/-- A reference allowed after following a `$ref` was allowed before: the
follow step records the current path in `paths` and replaces the path by
the split reference. -/
theorem refAllowed_follow (paths path : Option (List String)) (r x : String)
    (h : refAllowed (some ((paths.getD []) ++ [joinSlash (path.getD [])]))
      (some (refSplit r)) x = true) :
    refAllowed paths path x = true := by
  cases path with
  | none => rfl
  | some p =>
    simp only [refAllowed, Option.getD_some, Bool.not_eq_true'] at h ⊢
    simp only [pathHasCircularReference, Bool.or_eq_false_iff] at h ⊢
    have hany := h.2
    rw [List.any_eq_false] at hany
    constructor
    · have := hany (joinSlash p) (List.mem_append_right _ (by simp))
      simpa using this
    · rw [List.any_eq_false]
      intro q hq
      exact hany q (List.mem_append_left _ hq)

/-- Immediately after following reference `r`, the current path is the split
of `r` itself, so `r` is no longer allowed. -/
theorem refAllowed_follow_self (paths2 : List String) (r : String) :
    refAllowed (some paths2) (some (refSplit r)) r = false := by
  simp only [refAllowed, pathHasCircularReference, Option.getD_some,
    joinSlash_refSplit, strStartsWith_refl, Bool.true_or, Bool.not_true]

/-- If the guarded cycle check of `dereference` did not fire, the followed
reference was still allowed. -/
theorem refAllowed_of_check (paths path : Option (List String)) (r : String)
    (h : (path.isSome && pathHasCircularReference paths (path.getD []) r) = false) :
    refAllowed paths path r = true := by
  cases path with
  | none => rfl
  | some p =>
    simp only [Option.isSome_some, Bool.true_and, Option.getD_some] at h
    simp [refAllowed, h]

theorem mem_refsIn_self (fs : List (String × J)) (r : String)
    (hg : lookupField fs "$ref" = some (.str r)) (hr : r ≠ "") :
    r ∈ refsIn (J.obj fs) := by
  have hsz : J.size (J.obj fs) = J.sizeFields fs + 1 := by simp [J.size]; omega
  unfold refsIn
  rw [hsz]
  simp only [refsInF]
  refine List.mem_append_left _ ?_
  simp [ownRef, hg, hr]

/-- `lookupReference` never reports the reserved fuel error. -/
theorem lookup_ne_fuel (x root : J) (d : Option Nat) :
    lookupReference x root d ≠ .error "FUEL" := by
  cases x with
  | str s =>
    rw [lookupReference]
    split
    · intro h
      simp only [Except.error.injEq] at h
      exact absurd h (by decide)
    · split
      · intro h
        simp only [Except.error.injEq] at h
        exact absurd h (by decide)
      · split
        · intro h
          simp only [Except.error.injEq] at h
          exact absurd h (by decide)
        · split
          · intro h
            simp only [Except.error.injEq] at h
            exact absurd h (by decide)
          · split
            · intro h
              simp only [Except.error.injEq] at h
              have hlen := congrArg String.length h
              rw [String.length_append, String.length_append] at hlen
              have h1 : ("Reference to " : String).length = 13 := by decide
              have h2 : (" does not exist" : String).length = 15 := by decide
              have h3 : ("FUEL" : String).length = 4 := by decide
              omega
            · simp
  | null =>
    intro h
    simp only [lookupReference, Except.error.injEq] at h
    exact absurd h (by decide)
  | bool b =>
    intro h
    simp only [lookupReference, Except.error.injEq] at h
    exact absurd h (by decide)
  | num n =>
    intro h
    simp only [lookupReference, Except.error.injEq] at h
    exact absurd h (by decide)
  | arr es =>
    intro h
    simp only [lookupReference, Except.error.injEq] at h
    exact absurd h (by decide)
  | obj fs =>
    intro h
    simp only [lookupReference, Except.error.injEq] at h
    exact absurd h (by decide)

/-- The measure drops on every structural descent: the value shrinks while
the allowed-reference set can only shrink. -/
theorem derefMeasure_lt_of (exm e root : J) (paths path path2 : Option (List String))
    (hsz : J.size e < J.size exm)
    (hrefs : ∀ x ∈ refsIn e, x ∈ refsIn exm)
    (hallow : ∀ x, refAllowed paths path2 x = true → refAllowed paths path x = true) :
    derefMeasure e root paths path2 < derefMeasure exm root paths path := by
  unfold derefMeasure
  have hsub : ((refsIn e ++ refsIn root).toFinset.filter
      (fun x => refAllowed paths path2 x = true)) ⊆
      ((refsIn exm ++ refsIn root).toFinset.filter
        (fun x => refAllowed paths path x = true)) := by
    intro x hx
    rw [Finset.mem_filter, List.mem_toFinset, List.mem_append] at hx ⊢
    refine ⟨?_, hallow x hx.2⟩
    rcases hx.1 with h1 | h1
    · exact Or.inl (hrefs x h1)
    · exact Or.inr h1
  have hcard := Finset.card_le_card hsub
  have hmul := Nat.mul_le_mul_right (J.size root + 1) hcard
  exact Nat.add_lt_add_of_le_of_lt hmul hsz

/-- The measure drops on every reference follow: `r` leaves the allowed set
while the target stays within the root. -/
theorem derefMeasure_follow (fs : List (String × J)) (root : J)
    (paths path : Option (List String)) (r : String) (lk : LookupResult)
    (hg : lookupField fs "$ref" = some (.str r)) (hr : r ≠ "")
    (hcheck : (path.isSome && pathHasCircularReference paths (path.getD []) r) = false)
    (hlk : lookupReference (.str r) root none = .ok lk) :
    derefMeasure lk.referenced root (some ((paths.getD []) ++ [joinSlash (path.getD [])]))
      (some (refSplit r)) < derefMeasure (J.obj fs) root paths path := by
  unfold derefMeasure
  obtain ⟨hsub0, hszle⟩ := lookup_sub r root none lk hlk
  have hrF : r ∈ ((refsIn (J.obj fs) ++ refsIn root).toFinset.filter
      (fun x => refAllowed paths path x = true)) := by
    rw [Finset.mem_filter, List.mem_toFinset]
    exact ⟨List.mem_append_left _ (mem_refsIn_self fs r hg hr),
      refAllowed_of_check paths path r hcheck⟩
  have hsub : ((refsIn lk.referenced ++ refsIn root).toFinset.filter
      (fun x => refAllowed (some ((paths.getD []) ++ [joinSlash (path.getD [])]))
        (some (refSplit r)) x = true)) ⊆
      ((refsIn (J.obj fs) ++ refsIn root).toFinset.filter
        (fun x => refAllowed paths path x = true)).erase r := by
    intro x hx
    rw [Finset.mem_filter, List.mem_toFinset, List.mem_append] at hx
    rw [Finset.mem_erase]
    constructor
    · intro hxr
      subst hxr
      rw [refAllowed_follow_self] at hx
      exact absurd hx.2 (by simp)
    · rw [Finset.mem_filter, List.mem_toFinset, List.mem_append]
      refine ⟨?_, refAllowed_follow paths path r x hx.2⟩
      rcases hx.1 with h1 | h1
      · exact Or.inr (hsub0 x h1)
      · exact Or.inr h1
  have hcard := Finset.card_le_card hsub
  rw [Finset.card_erase_of_mem hrF] at hcard
  have hpos : 1 ≤ ((refsIn (J.obj fs) ++ refsIn root).toFinset.filter
      (fun x => refAllowed paths path x = true)).card :=
    Finset.card_pos.mpr ⟨r, hrF⟩
  obtain ⟨c, hc⟩ : ∃ c, ((refsIn (J.obj fs) ++ refsIn root).toFinset.filter
      (fun x => refAllowed paths path x = true)).card = c + 1 :=
    ⟨((refsIn (J.obj fs) ++ refsIn root).toFinset.filter
      (fun x => refAllowed paths path x = true)).card - 1, by omega⟩
  rw [hc] at hcard
  rw [hc]
  have hcard2 : ((refsIn lk.referenced ++ refsIn root).toFinset.filter
      (fun x => refAllowed (some ((paths.getD []) ++ [joinSlash (path.getD [])]))
        (some (refSplit r)) x = true)).card ≤ c := by omega
  have h1 := Nat.mul_le_mul_right (J.size root + 1) hcard2
  have h2 : (c + 1) * (J.size root + 1) = c * (J.size root + 1) + (J.size root + 1) :=
    add_one_mul c (J.size root + 1)
  calc ((refsIn lk.referenced ++ refsIn root).toFinset.filter
        (fun x => refAllowed (some ((paths.getD []) ++ [joinSlash (path.getD [])]))
          (some (refSplit r)) x = true)).card * (J.size root + 1) + J.size lk.referenced
      ≤ c * (J.size root + 1) + J.size root := Nat.add_le_add h1 hszle
    _ < c * (J.size root + 1) + (J.size root + 1) :=
      Nat.add_lt_add_left (Nat.lt_succ_self _) _
    _ = (c + 1) * (J.size root + 1) := h2.symm
    _ ≤ (c + 1) * (J.size root + 1) + J.size (J.obj fs) := Nat.le_add_right _ _

theorem exBind_ne_fuel {α β : Type} (x : Except String α) (f : α → Except String β)
    (hx : x ≠ .error "FUEL") (hf : ∀ a, x = .ok a → f a ≠ .error "FUEL") :
    exBind x f ≠ .error "FUEL" := by
  cases x with
  | error e =>
    rw [exBind_error]
    intro hc
    have he : e = "FUEL" := by injection hc
    exact hx (by rw [he])
  | ok a => rw [exBind_ok]; exact hf a rfl

theorem derefList_ne_fuel
    (rec : J → Option (List String) → Option (List String) → Except String J)
    (es : List J) (paths path : Option (List String))
    (h : ∀ e ∈ es, rec e paths path ≠ .error "FUEL") :
    derefList rec es paths path ≠ .error "FUEL" := by
  induction es with
  | nil => simp [derefList]
  | cons e es ih =>
    simp only [derefList]
    apply exBind_ne_fuel
    · exact h e (List.mem_cons_self _ _)
    · intro v hv
      apply exBind_ne_fuel
      · exact ih (fun x hx => h x (List.mem_cons_of_mem _ hx))
      · intro vs hvs
        simp

theorem derefFields_ne_fuel
    (rec : J → Option (List String) → Option (List String) → Except String J)
    (fs : List (String × J)) (paths path : Option (List String))
    (h : ∀ kv ∈ fs, rec kv.2 paths (some ((path.getD []) ++ [kv.1])) ≠ .error "FUEL") :
    derefFields rec fs paths path ≠ .error "FUEL" := by
  induction fs with
  | nil => simp [derefFields]
  | cons kv fs ih =>
    obtain ⟨k, v⟩ := kv
    simp only [derefFields]
    apply exBind_ne_fuel
    · exact h (k, v) (List.mem_cons_self _ _)
    · intro w hw
      apply exBind_ne_fuel
      · exact ih (fun x hx => h x (List.mem_cons_of_mem _ hx))
      · intro ws hws
        simp

theorem dereferenceF_succ_null (n : Nat) (root : J) (paths path : Option (List String)) :
    dereferenceF (n + 1) .null root paths path = .ok .null := by
  conv_lhs => rw [dereferenceF]
  rw [if_pos rfl]

theorem dereferenceF_succ_noref (n : Nat) (exm root : J) (paths path : Option (List String))
    (hnull : exm ≠ .null) (hg : exm.get "$ref" = none) :
    dereferenceF (n + 1) exm root paths path =
      derefStructural (fun e ps p => dereferenceF n e root ps p) exm paths path := by
  conv_lhs => rw [dereferenceF]
  rw [if_neg hnull, hg]

theorem dereferenceF_succ_nonstr (n : Nat) (exm root : J) (paths path : Option (List String))
    (v : J) (hnull : exm ≠ .null) (hg : exm.get "$ref" = some v) (hv : ∀ s, v ≠ .str s) :
    dereferenceF (n + 1) exm root paths path =
      derefStructural (fun e ps p => dereferenceF n e root ps p) exm paths path := by
  conv_lhs => rw [dereferenceF]
  rw [if_neg hnull, hg]
  cases v with
  | str s => exact absurd rfl (hv s)
  | null => rfl
  | bool b => rfl
  | num m => rfl
  | arr es => rfl
  | obj fs => rfl

theorem dereferenceF_succ_refempty (n : Nat) (exm root : J) (paths path : Option (List String))
    (hnull : exm ≠ .null) (hg : exm.get "$ref" = some (.str "")) :
    dereferenceF (n + 1) exm root paths path =
      derefStructural (fun e ps p => dereferenceF n e root ps p) exm paths path := by
  conv_lhs => rw [dereferenceF]
  rw [if_neg hnull, hg]
  change (if ("" : String) = "" then _ else _) = _
  rw [if_pos rfl]

theorem dereferenceF_succ_ref (n : Nat) (exm root : J) (paths path : Option (List String))
    (r : String) (hnull : exm ≠ .null) (hg : exm.get "$ref" = some (.str r)) (hr : r ≠ "") :
    dereferenceF (n + 1) exm root paths path =
      if path.isSome && pathHasCircularReference paths (path.getD []) r then .ok .null
      else exBind (lookupReference (.str r) root none) fun ref =>
        dereferenceF n ref.referenced root
          (some ((paths.getD []) ++ [joinSlash (path.getD [])])) (some (refSplit r)) := by
  conv_lhs => rw [dereferenceF]
  rw [if_neg hnull, hg]
  change (if r = "" then _ else _) = _
  rw [if_neg hr]

/-- The fuel-indexed `dereference` never exhausts fuel above the measure:
every structural descent shrinks the value, and every reference follow
strictly shrinks the set of still-followable references. -/
theorem dereferenceF_no_fuel : ∀ (fuel : Nat) (exm root : J)
    (paths path : Option (List String)),
    derefMeasure exm root paths path < fuel →
    dereferenceF fuel exm root paths path ≠ .error "FUEL" := by
  intro fuel
  induction fuel with
  | zero => intro exm root paths path h; exact absurd h (Nat.not_lt_zero _)
  | succ n ih =>
    intro exm root paths path h
    by_cases hnull : exm = .null
    · subst hnull
      rw [dereferenceF_succ_null]
      simp
    · have hstruct : derefStructural (fun e ps p => dereferenceF n e root ps p)
          exm paths path ≠ .error "FUEL" := by
        unfold derefStructural
        cases exm with
        | arr es =>
          apply exBind_ne_fuel
          · apply derefList_ne_fuel
            intro e he
            apply ih
            have hm := derefMeasure_lt_of (J.arr es) e root paths path path
              (by have := sizeList_mem es e he; simp [J.size]; omega)
              (fun x hx => refsIn_elem es e x he hx)
              (fun x hx => hx)
            omega
          · intro vs hvs; simp
        | obj fs =>
          apply exBind_ne_fuel
          · apply derefFields_ne_fuel
            intro kv hkv
            apply ih
            have hm := derefMeasure_lt_of (J.obj fs) kv.2 root paths path
              (some ((path.getD []) ++ [kv.1]))
              (by have := sizeFields_mem fs kv hkv; simp [J.size]; omega)
              (fun x hx => refsIn_field fs kv x hkv hx)
              (fun x hx => refAllowed_extend paths path kv.1 x hx)
            omega
          · intro ws hws; simp
        | null => simp
        | bool b => simp
        | num m => simp
        | str s => simp
      cases hg : exm.get "$ref" with
      | none =>
        rw [dereferenceF_succ_noref n exm root paths path hnull hg]
        exact hstruct
      | some v =>
        cases v with
        | str r =>
          by_cases hre : r = ""
          · subst hre
            rw [dereferenceF_succ_refempty n exm root paths path hnull hg]
            exact hstruct
          · rw [dereferenceF_succ_ref n exm root paths path r hnull hg hre]
            by_cases hcirc :
                (path.isSome && pathHasCircularReference paths (path.getD []) r) = true
            · rw [if_pos hcirc]; simp
            · have hc2 :
                  (path.isSome && pathHasCircularReference paths (path.getD []) r) = false := by
                simpa using hcirc
              rw [if_neg (by simp [hc2])]
              apply exBind_ne_fuel
              · exact lookup_ne_fuel (.str r) root none
              · intro lk hlk
                apply ih
                cases exm with
                | obj fs =>
                  have hm := derefMeasure_follow fs root paths path r lk hg hre hc2 hlk
                  omega
                | arr es =>
                  exfalso
                  simp only [J.get] at hg
                  rw [show strToNat? "$ref" = none from by decide] at hg
                  simp at hg
                | null => simp [J.get] at hg
                | bool b => simp [J.get] at hg
                | num m => simp [J.get] at hg
                | str s => simp [J.get] at hg
        | null =>
          rw [dereferenceF_succ_nonstr n exm root paths path _ hnull hg (by intro s; simp)]
          exact hstruct
        | bool b =>
          rw [dereferenceF_succ_nonstr n exm root paths path _ hnull hg (by intro s; simp)]
          exact hstruct
        | num m =>
          rw [dereferenceF_succ_nonstr n exm root paths path _ hnull hg (by intro s; simp)]
          exact hstruct
        | arr es =>
          rw [dereferenceF_succ_nonstr n exm root paths path _ hnull hg (by intro s; simp)]
          exact hstruct
        | obj fs2 =>
          rw [dereferenceF_succ_nonstr n exm root paths path _ hnull hg (by intro s; simp)]
          exact hstruct

theorem concatMapS_length_le (f : J → List String) (es : List J)
    (h : ∀ e ∈ es, (f e).length ≤ J.size e) :
    (concatMapS f es).length ≤ J.sizeList es := by
  induction es with
  | nil => simp [concatMapS, J.sizeList]
  | cons e es ih =>
    simp only [concatMapS, List.length_append, J.sizeList]
    have h1 := h e (List.mem_cons_self _ _)
    have h2 := ih (fun x hx => h x (List.mem_cons_of_mem _ hx))
    omega

theorem concatMapFieldsS_length_le (f : J → List String) (fs : List (String × J))
    (h : ∀ kv ∈ fs, (f kv.2).length ≤ J.size kv.2) :
    (concatMapFieldsS f fs).length ≤ J.sizeFields fs := by
  induction fs with
  | nil => simp [concatMapFieldsS, J.sizeFields]
  | cons kv fs ih =>
    obtain ⟨k, v⟩ := kv
    simp only [concatMapFieldsS, List.length_append, J.sizeFields]
    have h1 : (f v).length ≤ J.size v := h (k, v) (List.mem_cons_self _ _)
    have h2 := ih (fun x hx => h x (List.mem_cons_of_mem _ hx))
    omega

theorem ownRef_length : ∀ (v : J), (ownRef v).length ≤ 1 := by
  intro v
  cases v with
  | obj fs =>
    simp only [ownRef]
    split
    · split <;> simp
    · simp
  | null => simp [ownRef]
  | bool b => simp [ownRef]
  | num n => simp [ownRef]
  | str s => simp [ownRef]
  | arr es => simp [ownRef]

theorem refsInF_length : ∀ (fuel : Nat) (v : J), (refsInF fuel v).length ≤ J.size v := by
  intro fuel
  induction fuel with
  | zero => intro v; simp [refsInF]
  | succ n ih =>
    intro v
    cases v with
    | obj fs =>
      simp only [refsInF, List.length_append]
      have h1 := ownRef_length (J.obj fs)
      have h2 := concatMapFieldsS_length_le (fun w => refsInF n w) fs (fun kv _ => ih kv.2)
      simp only [J.size]
      omega
    | arr es =>
      simp only [refsInF]
      have h2 := concatMapS_length_le (fun w => refsInF n w) es (fun e _ => ih e)
      simp only [J.size]
      omega
    | null => simp [refsInF, J.size]
    | bool b => simp [refsInF, J.size]
    | num m => simp [refsInF, J.size]
    | str s => simp [refsInF, J.size]

/-- The wrapper fuel `derefBound` strictly dominates the measure for every
starting state. -/
theorem derefMeasure_lt_bound (exm root : J) (paths path : Option (List String)) :
    derefMeasure exm root paths path < derefBound exm root := by
  unfold derefMeasure derefBound
  have h1 : ((refsIn exm ++ refsIn root).toFinset.filter
      (fun x => refAllowed paths path x = true)).card ≤ (refsIn exm ++ refsIn root).length :=
    le_trans (Finset.card_le_card (Finset.filter_subset _ _)) (List.toFinset_card_le _)
  rw [List.length_append] at h1
  have h2 : (refsIn exm).length ≤ J.size exm := refsInF_length _ _
  have h3 : (refsIn root).length ≤ J.size root := refsInF_length _ _
  have hcard : ((refsIn exm ++ refsIn root).toFinset.filter
      (fun x => refAllowed paths path x = true)).card ≤ J.size exm + J.size root := by
    omega
  have hmul := Nat.mul_le_mul_right (J.size root + 1) hcard
  have hsucc : (J.size exm + J.size root + 1) * (J.size root + 1) =
      (J.size exm + J.size root) * (J.size root + 1) + (J.size root + 1) :=
    add_one_mul _ _
  rw [hsucc]
  set P1 := ((refsIn exm ++ refsIn root).toFinset.filter
      (fun x => refAllowed paths path x = true)).card * (J.size root + 1) with hP1
  set P2 := (J.size exm + J.size root) * (J.size root + 1) with hP2
  omega

/-- C6.  `dereference` terminates on every input: with the proved fuel bound
the reserved fuel outcome is unreachable, so every run returns an ordinary
result or a lookup error.  Concretely, both the self-referential and the
mutually-referential definition cycles return `null` silently. -/
theorem C6_theorem :
    (∀ (exm root : J) (paths path : Option (List String)),
      dereference exm root paths path ≠ .error "FUEL") ∧
    dereference (J.obj [("$ref", J.str "#/definitions/A")])
      (J.obj [("definitions", J.obj [("A", J.obj [("$ref", J.str "#/definitions/A")])])])
      none none = .ok .null ∧
    dereference (J.obj [("$ref", J.str "#/definitions/A")])
      (J.obj [("definitions", J.obj
        [("A", J.obj [("$ref", J.str "#/definitions/B")]),
         ("B", J.obj [("$ref", J.str "#/definitions/A")])])])
      none none = .ok .null :=
  ⟨fun exm root paths path =>
    dereferenceF_no_fuel (derefBound exm root) exm root paths path
      (derefMeasure_lt_bound exm root paths path),
   rfl, rfl⟩
